import Mathlib

/-!
Verification of the confident-learning reference procedure
(`examples/simplifying_confident_learning_tutorial.ipynb`).

The notebook's two steps are embedded shallowly over `ℚ`:

* STEP 1 (confident joint): per-class thresholds, per-example confident
  bins, the raw `K × K` confident joint, and its calibration.
* STEP 2 (label errors): the transposed prune-count matrix with its
  keep-at-least-n floor adjustment, per-true-class order-statistic
  selection, the union of the per-class masks, the prediction override,
  and the final margin ranking.

Floating-point arrays are modelled as lists of rationals; an undefined
threshold (`np.mean` of an empty slice, a NaN) is modelled as `none`,
matching the fact that every float comparison against NaN is false.
Fallible numpy indexing (out-of-range index, out-of-range `kth` for
`np.partition`) is modelled with `Option`: `none` is a raised exception.

`cleanlab.latent_estimation.calibrate_confident_joint` and
`cleanlab.pruning.keep_at_least_n_per_class` are library code of this
repository whose source is not part of the sources here; they are
modelled from the spec and carry doc comments saying so.
-/

/-- The numerical tolerance `1e-6` used in the threshold comparison
`row >= thresholds - 1e-6`. -/
def epsTol : ℚ := 1 / 1000000

/-- `psx[:, k][s == k]`: the predicted probabilities for class `k` of the
examples whose observed label is `k`. -/
def classProbs (s : List ℕ) (psx : List (List ℚ)) (k : ℕ) : List ℚ :=
  (s.zip psx).filterMap (fun p => if p.1 = k then some (p.2.getD k 0) else none)

/-- `thresholds[k] = np.mean(psx[:, k][s == k])`.  The mean of an empty
slice is NaN in numpy; it is modelled as `none`. -/
def threshold (s : List ℕ) (psx : List (List ℚ)) (k : ℕ) : Option ℚ :=
  let l := classProbs s psx k
  if l = [] then none else some (l.sum / l.length)

/-- The length-`K` threshold vector. -/
def thresholdVec (s : List ℕ) (psx : List (List ℚ)) (K : ℕ) : List (Option ℚ) :=
  (List.range K).map (threshold s psx)

/-- One entry of `row >= thresholds - 1e-6`.  A comparison against an
undefined (NaN) threshold is false. -/
def confidentBin : Option ℚ → ℚ → Bool
  | none, _ => false
  | some t, p => decide (t - epsTol ≤ p)

/-- `confident_bins = row >= thresholds - 1e-6`, elementwise. -/
def confidentBins (ts : List (Option ℚ)) (row : List ℚ) : List Bool :=
  List.zipWith confidentBin ts row

/-- Maximum of a list of rationals (`np.max` over a nonempty row). -/
def listMax : List ℚ → ℚ
  | [] => 0
  | [x] => x
  | x :: y :: t => max x (listMax (y :: t))

/-- `np.argmax`: the index of the first occurrence of the maximum. -/
def argmaxIdx : List ℚ → ℕ
  | [] => 0
  | x :: xs => if listMax (x :: xs) ≤ x then 0 else argmaxIdx xs + 1

/-- The column of the confident joint that one example increments:
the unique confident bin if there is exactly one, the row argmax if
there are several, nothing if there are none. -/
def contribCol (ts : List (Option ℚ)) (row : List ℚ) : Option ℕ :=
  let bins := confidentBins ts row
  let nc := bins.count true
  if nc = 1 then some (bins.findIdx (fun b => b))
  else if 1 < nc then some (argmaxIdx row)
  else none

/-- The all-zero `K × K` count matrix `np.zeros((K, K))`. -/
def emptyJoint : ℕ → ℕ → ℕ := fun _ _ => 0

/-- Increment cell `(a, b)` of a count matrix. -/
def bumpCell (jm : ℕ → ℕ → ℕ) (a b : ℕ) : ℕ → ℕ → ℕ :=
  fun x y => if x = a ∧ y = b then jm x y + 1 else jm x y

/-- One iteration of the confident-joint loop: process the pair
`(s[i], psx[i])`.  Indexing `confident_joint[s_label][col]` out of range
raises in numpy; that is the `none` outcome. -/
def jointStep (K : ℕ) (ts : List (Option ℚ)) (acc : Option (ℕ → ℕ → ℕ))
    (p : ℕ × List ℚ) : Option (ℕ → ℕ → ℕ) :=
  acc.bind (fun jm =>
    match contribCol ts p.2 with
    | none => some jm
    | some c => if p.1 < K ∧ c < K then some (bumpCell jm p.1 c) else none)

/-- STEP 1's loop: the raw (uncalibrated) confident joint. -/
def rawJoint (s : List ℕ) (psx : List (List ℚ)) (K : ℕ) : Option (ℕ → ℕ → ℕ) :=
  (s.zip psx).foldl (jointStep K (thresholdVec s psx K)) (some emptyJoint)

/-- `K = len(np.unique(s))`. -/
def numClasses (s : List ℕ) : ℕ := s.dedup.length

/-- Fractional part of a rational. -/
def fracPart (q : ℚ) : ℚ := q - ⌊q⌋

/-- Order on column indices used to distribute the rounding residual:
larger fractional part first, ties broken by smaller column index. -/
def fracOrder (scaled : List ℚ) (a b : ℕ) : Prop :=
  fracPart (scaled.getD b 0) < fracPart (scaled.getD a 0) ∨
    (fracPart (scaled.getD a 0) = fracPart (scaled.getD b 0) ∧ a ≤ b)

instance (scaled : List ℚ) : DecidableRel (fracOrder scaled) := fun a b =>
  inferInstanceAs (Decidable (fracPart (scaled.getD b 0) < fracPart (scaled.getD a 0) ∨
    (fracPart (scaled.getD a 0) = fracPart (scaled.getD b 0) ∧ a ≤ b)))

/-- Modelled from the spec: `cleanlab.latent_estimation.calibrate_confident_joint`
is repository library code whose source is not included here.  Per spec
§4.1 step 3, a row whose sum is nonzero is rescaled proportionally to
`target / rowsum` and then rounded to integers by largest-remainder
rounding, distributing the rounding residual to the cells with the
largest fractional parts first, ties broken by column index, so that the
row total is preserved exactly; a row with zero sum stays zero.
This definition gives the rescaled (pre-rounding) row. -/
def scaledRow (row : List ℕ) (target : ℕ) : List ℚ :=
  row.map (fun (x : ℕ) => (x : ℚ) * target / (row.sum : ℚ))

/-- Floor each rescaled cell. -/
def floorsOf (scaled : List ℚ) : List ℕ := scaled.map (fun q => (⌊q⌋).toNat)

/-- The cells that receive one extra unit of the rounding residual: the
`residual` cells with the largest fractional parts, ties broken by
column index. -/
def bumpSet (row : List ℕ) (target : ℕ) : List ℕ :=
  ((List.range row.length).insertionSort (fracOrder (scaledRow row target))).take
    (target - (floorsOf (scaledRow row target)).sum)

def calibrateRow (row : List ℕ) (target : ℕ) : List ℕ :=
  if row.sum = 0 then row
  else (List.range row.length).map
    (fun c => (floorsOf (scaledRow row target)).getD c 0 +
      if c ∈ bumpSet row target then 1 else 0)

/-- Modelled from the spec: the calibrated confident joint, each row `a`
rescaled and rounded to sum to `count(s == a)`. -/
def calibrate (jm : ℕ → ℕ → ℕ) (s : List ℕ) (K : ℕ) : ℕ → ℕ → ℕ :=
  fun a b =>
    if a < K ∧ b < K then (calibrateRow ((List.range K).map (jm a)) (s.count a)).getD b 0
    else 0

/-- STEP 1 end to end: raw confident joint, then calibration, with
`K` inferred as the number of distinct observed labels. -/
def estimateJoint (s : List ℕ) (psx : List (List ℚ)) : Option (ℕ → ℕ → ℕ) :=
  (rawJoint s psx (numClasses s)).map (fun jm => calibrate jm s (numClasses s))

/-- The indices of the examples whose observed label is `j`
(`np.arange(len(s))[s == j]`). -/
def labelIndices (s : List ℕ) (j : ℕ) : List ℕ :=
  (List.range s.length).filter (fun i => decide (s.getD i 0 = j))

/-- `psx[i][k]` with fallible indexing collapsed to a default: only used
at indices that exist in the matrix. -/
def colOf (psx : List (List ℚ)) (i k : ℕ) : ℚ := (psx.getD i []).getD k 0

/-- The margin `psx[:, k] - psx[:, j]` at example `i`. -/
def marginKJ (psx : List (List ℚ)) (k j i : ℕ) : ℚ := colOf psx i k - colOf psx i j

/-- The list sorted into descending order. -/
def descSorted (l : List ℚ) : List ℚ := l.insertionSort (fun a b => b ≤ a)

/-- `-np.partition(-arr, m - 1)[m - 1]`: the `m`-th largest value of the
list.  `np.partition` raises when `m - 1` is out of range; that is the
`none` outcome. -/
def kthLargest (l : List ℚ) (m : ℕ) : Option ℚ := (descSorted l).get? (m - 1)

/-- The selection for one `(k, j)` pair: the cutoff is the
`num2prune`-th largest margin among the examples with observed label
`j`, and the mask keeps `s == j && margin >= cutoff`. -/
def pairMask (s : List ℕ) (psx : List (List ℚ)) (k j np2 : ℕ) : Option (ℕ → Bool) :=
  (kthLargest ((labelIndices s j).map (marginKJ psx k j)) np2).map
    (fun cut => fun i => decide (s.getD i 0 = j) && decide (cut ≤ marginKJ psx k j i))

/-- Pointwise OR of two masks. -/
def orMask (m1 m2 : ℕ → Bool) : ℕ → Bool := fun i => m1 i || m2 i

/-- Body of the inner (noisy label `j`) loop of STEP 2 for true class
`k`: prune only off-diagonal entries with a positive prune count. -/
def pairGo (s : List ℕ) (psx : List (List ℚ)) (pc : ℕ → ℕ → ℕ) (k j : ℕ)
    (m : ℕ → Bool) : Option (ℕ → Bool) :=
  if k ≠ j ∧ 0 < pc k j then (pairMask s psx k j (pc k j)).map (orMask m) else some m

/-- One fold step of the inner loop. -/
def pairStep (s : List ℕ) (psx : List (List ℚ)) (pc : ℕ → ℕ → ℕ) (k : ℕ)
    (acc : Option (ℕ → Bool)) (j : ℕ) : Option (ℕ → Bool) :=
  acc.bind (pairGo s psx pc k j)

/-- The per-true-class noise mask of STEP 2: empty unless the observed
count of class `k` exceeds `MIN_NUM_PER_CLASS`. -/
def classMask (s : List ℕ) (psx : List (List ℚ)) (pc : ℕ → ℕ → ℕ)
    (K minPer k : ℕ) : Option (ℕ → Bool) :=
  if minPer < s.count k then
    (List.range K).foldl (pairStep s psx pc k) (some (fun _ => false))
  else some (fun _ => false)

/-- One fold step of the outer loop combining the per-class masks. -/
def combinedStep (s : List ℕ) (psx : List (List ℚ)) (pc : ℕ → ℕ → ℕ)
    (K minPer : ℕ) (acc : Option (ℕ → Bool)) (k : ℕ) : Option (ℕ → Bool) :=
  acc.bind (fun m => (classMask s psx pc K minPer k).map (orMask m))

/-- `label_errors_bool` before the prediction override: the union
(logical OR) of the per-true-class noise masks. -/
def combinedMask (s : List ℕ) (psx : List (List ℚ)) (pc : ℕ → ℕ → ℕ)
    (K minPer : ℕ) : Option (ℕ → Bool) :=
  (List.range K).foldl (combinedStep s psx pc K minPer) (some (fun _ => false))

/-- The prediction override: drop any flag whose row argmax equals the
observed label. -/
def stepD (s : List ℕ) (psx : List (List ℚ)) (mask : ℕ → Bool) : ℕ → Bool :=
  fun i => mask i && !(decide (argmaxIdx (psx.getD i []) = s.getD i 0))

/-- The ranking score of a flagged example: self-confidence minus the
row maximum. -/
def marginOf (s : List ℕ) (psx : List (List ℚ)) (i : ℕ) : ℚ :=
  colOf psx i (s.getD i 0) - listMax (psx.getD i [])

/-- Comparison used to rank flagged examples: ascending margin. -/
def rankOrder (a b : ℚ × ℕ) : Prop := a.1 ≤ b.1

instance : DecidableRel rankOrder := fun a b =>
  inferInstanceAs (Decidable (a.1 ≤ b.1))

instance : IsTotal (ℚ × ℕ) rankOrder := ⟨fun a b => le_total a.1 b.1⟩

instance : IsTrans (ℚ × ℕ) rankOrder := ⟨fun _ _ _ h1 h2 => le_trans h1 h2⟩

/-- The final ordered list of flagged indices: apply the prediction
override, then sort the surviving flags by ascending margin
(`label_errors_idx[np.argsort(margin)]`). -/
def rankErrors (s : List ℕ) (psx : List (List ℚ)) (mask : ℕ → Bool) : List ℕ :=
  ((((List.range s.length).filter (fun i => stepD s psx mask i)).map
      (fun i => (marginOf s psx i, i))).insertionSort rankOrder).map Prod.snd

/-- Sum of all entries of a list (used for the shaving fuel). -/
def natMax (l : List ℕ) : ℕ := l.foldr max 0

/-- Decrement the first occurrence of the maximum entry. -/
def shaveOnce (l : List ℕ) : List ℕ :=
  l.set (l.findIdx (fun x => x = natMax l)) (natMax l - 1)

/-- Repeatedly decrement the largest entry, `e` times, stopping early
when everything is zero. -/
def shave : ℕ → List ℕ → List ℕ
  | 0, l => l
  | e + 1, l => if l.sum = 0 then l else shave e (shaveOnce l)

/-- Column `j` of the transposed joint with its diagonal entry zeroed:
the off-diagonal prune counts targeting observed class `j`. -/
def offdiagCol (jm : ℕ → ℕ → ℕ) (K j : ℕ) : List ℕ :=
  (List.range K).map (fun k => if k = j then 0 else jm j k)

/-- Modelled from the spec: `cleanlab.pruning.keep_at_least_n_per_class`
is repository library code whose source is not included here.  Per spec
§4.2 step A, for each observed class `j` whose count exceeds
`minPer`, the off-diagonal prune counts targeting class `j` are reduced
largest-entries-first until the implied number of kept examples for that
class would not drop below `minPer`; diagonal entries are raised to at
least `minPer` (they are never pruned). -/
def adjustedPrune (jm : ℕ → ℕ → ℕ) (s : List ℕ) (K minPer : ℕ) : ℕ → ℕ → ℕ :=
  fun k j =>
    if k = j then max (jm j j) minPer
    else if minPer < s.count j then
      (shave ((offdiagCol jm K j).sum - (s.count j - minPer)) (offdiagCol jm K j)).getD k 0
    else jm j k

/-- STEP 2 end to end: floor-adjust the transposed calibrated joint,
build and combine the per-class masks, apply the prediction override,
and rank the flags by margin. -/
def selectErrors (jm : ℕ → ℕ → ℕ) (s : List ℕ) (psx : List (List ℚ))
    (K minPer : ℕ) : Option (List ℕ) :=
  (combinedMask s psx (adjustedPrune jm s K minPer) K minPer).map (rankErrors s psx)

/-- The whole notebook: STEP 1 then STEP 2. -/
def findLabelErrors (s : List ℕ) (psx : List (List ℚ)) (minPer : ℕ) : Option (List ℕ) :=
  (estimateJoint s psx).bind (fun jm => selectErrors jm s psx (numClasses s) minPer)

/-! ### General list lemmas -/

lemma getD_map_range {α : Type} (f : ℕ → α) {K i : ℕ} (d : α) (h : i < K) :
    ((List.range K).map f).getD i d = f i := by
  have hl : i < ((List.range K).map f).length := by simpa using h
  rw [List.getD_eq_getElem _ _ hl, List.getElem_map, List.getElem_range]

lemma getD_mem_of_lt {α : Type} (l : List α) (d : α) {i : ℕ} (h : i < l.length) :
    l.getD i d ∈ l := by
  rw [List.getD_eq_getElem l d h]
  exact l.getElem_mem h

lemma map_getD_range {α : Type} (l : List α) (d : α) :
    (List.range l.length).map (fun i => l.getD i d) = l := by
  apply List.ext_getElem
  · simp
  · intro i h1 h2
    simp only [List.getElem_map, List.getElem_range]
    exact List.getD_eq_getElem l d h2

lemma getD_zipWith {α β γ : Type} (f : α → β → γ) (l1 : List α) (l2 : List β)
    (d1 : α) (d2 : β) (d : γ) {i : ℕ} (h1 : i < l1.length) (h2 : i < l2.length) :
    (List.zipWith f l1 l2).getD i d = f (l1.getD i d1) (l2.getD i d2) := by
  have hl : i < (List.zipWith f l1 l2).length := by
    rw [List.length_zipWith]; omega
  rw [List.getD_eq_getElem _ _ hl, List.getD_eq_getElem _ _ h1,
    List.getD_eq_getElem _ _ h2, List.getElem_zipWith]

lemma countP_range_getD (s : List ℕ) (j : ℕ) :
    (List.range s.length).countP (fun i => decide (s.getD i 0 = j)) = s.count j := by
  induction s generalizing j with
  | nil => simp
  | cons a t ih =>
    rw [List.length_cons, List.range_succ_eq_map, List.countP_cons, List.countP_map]
    have h1 : (List.range t.length).countP
        ((fun i => decide ((a :: t).getD i 0 = j)) ∘ Nat.succ) =
        (List.range t.length).countP (fun i => decide (t.getD i 0 = j)) := by
      apply List.countP_congr
      intro i _
      show decide ((a :: t).getD (i + 1) 0 = j) = true ↔ decide (t.getD i 0 = j) = true
      rw [List.getD_cons_succ]
    rw [h1, ih j, List.count_cons]
    have h2 : (a :: t).getD 0 0 = a := List.getD_cons_zero
    rw [h2]
    by_cases haj : a = j
    · simp [haj]
    · simp [haj, Ne.symm haj]

lemma sum_lt_length_mul {l : List ℚ} {c : ℚ} (hne : l ≠ [])
    (h : ∀ x ∈ l, x < c) : l.sum < l.length * c := by
  induction l with
  | nil => simp at hne
  | cons a t ih =>
    rcases List.eq_nil_or_concat t with rfl | hc
    · simpa using h a (by simp)
    · have ht : t ≠ [] := by
        obtain ⟨u, x, rfl⟩ := hc
        simp
      have h1 := ih ht (fun x hx => h x (List.mem_cons_of_mem a hx))
      have ha := h a (List.mem_cons_self a t)
      rw [List.sum_cons, List.length_cons]
      push_cast
      nlinarith

lemma exists_ge_mean {l : List ℚ} (hne : l ≠ []) :
    ∃ x ∈ l, l.sum / l.length - epsTol ≤ x := by
  by_contra hcon
  push_neg at hcon
  have h1 := sum_lt_length_mul hne hcon
  have hlen : 0 < (l.length : ℚ) := by
    have : 0 < l.length := List.length_pos_of_ne_nil hne
    exact_mod_cast this
  have h2 : (l.length : ℚ) * (l.sum / l.length - epsTol)
      = l.sum - l.length * epsTol := by
    field_simp
  rw [h2] at h1
  have heps : (0 : ℚ) < epsTol := by norm_num [epsTol]
  nlinarith

lemma count_true_ge_two {bs : List Bool} {p q : ℕ} (hp : p < bs.length)
    (hq : q < bs.length) (hpq : p ≠ q) (hbp : bs.getD p false = true)
    (hbq : bs.getD q false = true) : 2 ≤ bs.count true := by
  induction bs generalizing p q with
  | nil => simp at hp
  | cons b t ih =>
    have hcount : (b :: t).count true = t.count true + if b = true then 1 else 0 := by
      rw [List.count_cons]
      by_cases hb : b = true <;> simp [hb]
    rcases Nat.eq_zero_or_pos p with rfl | hp0
    · obtain ⟨q', rfl⟩ : ∃ q', q = q' + 1 := ⟨q - 1, by omega⟩
      have hbq' : t.getD q' false = true := by
        rw [← List.getD_cons_succ (x := b)]
        exact hbq
      have hq' : q' < t.length := by
        rw [List.length_cons] at hq
        omega
      have hmem : true ∈ t := by
        rw [← hbq']
        exact getD_mem_of_lt t false hq'
      have h1 : 0 < t.count true := List.count_pos_iff.mpr hmem
      have hb : b = true := by simpa using hbp
      rw [hcount, if_pos hb]
      omega
    · obtain ⟨p', rfl⟩ : ∃ p', p = p' + 1 := ⟨p - 1, by omega⟩
      have hbp' : t.getD p' false = true := by
        rw [← List.getD_cons_succ (x := b)]
        exact hbp
      have hp' : p' < t.length := by
        rw [List.length_cons] at hp
        omega
      rcases Nat.eq_zero_or_pos q with rfl | hq0
      · have hmem : true ∈ t := by
          rw [← hbp']
          exact getD_mem_of_lt t false hp'
        have h1 : 0 < t.count true := List.count_pos_iff.mpr hmem
        have hb : b = true := by simpa using hbq
        rw [hcount, if_pos hb]
        omega
      · obtain ⟨q', rfl⟩ : ∃ q', q = q' + 1 := ⟨q - 1, by omega⟩
        have hbq' : t.getD q' false = true := by
          rw [← List.getD_cons_succ (x := b)]
          exact hbq
        have hq' : q' < t.length := by
          rw [List.length_cons] at hq
          omega
        have h2 := ih hp' hq' (by omega) hbp' hbq'
        rw [hcount]
        omega

lemma findIdx_eq_of_unique_true {bs : List Bool} {k : ℕ} (hk : k < bs.length)
    (hbk : bs.getD k false = true) (hcount : bs.count true = 1) :
    bs.findIdx (fun b => b) = k := by
  have hex : ∃ x ∈ bs, (fun b => b) x = true := by
    refine ⟨true, ?_, rfl⟩
    rw [← hbk]
    exact getD_mem_of_lt bs false hk
  have hlt : bs.findIdx (fun b => b) < bs.length := List.findIdx_lt_length_of_exists hex
  have hval : bs.getD (bs.findIdx (fun b => b)) false = true := by
    rw [List.getD_eq_getElem _ _ hlt]
    have h3 := List.findIdx_getElem (w := hlt)
    simpa using h3
  by_contra hne
  have := count_true_ge_two hlt hk hne hval hbk
  omega

/-! ### STEP 1: the confident-counting rule -/

/-- The real-valued threshold the spec speaks about: the mean predicted
probability of class `k` among the examples observed as `k` (only
meaningful when that class is nonempty). -/
def tqOf (s : List ℕ) (psx : List (List ℚ)) (k : ℕ) : ℚ :=
  (classProbs s psx k).sum / (classProbs s psx k).length

/-- The confident set of one example, as the claim words it: the classes
`k` with `probs[i][k] >= threshold[k] - epsilon` (inclusive comparison),
listed in increasing class order. -/
def confidentSet (tq : ℕ → ℚ) (row : List ℚ) (K : ℕ) : List ℕ :=
  (List.range K).filter (fun k => decide (tq k - epsTol ≤ row.getD k 0))

/-- The claim's description of one example's contribution to the joint:
the unique member of the confident set if it is a singleton, the row
argmax if the set has more than one member, nothing if it is empty. -/
def specContrib (tq : ℕ → ℚ) (K : ℕ) (row : List ℚ) : Option ℕ :=
  match confidentSet tq row K with
  | [] => none
  | [k] => some k
  | _ :: _ :: _ => some (argmaxIdx row)

lemma thresholdVec_getD (s : List ℕ) (psx : List (List ℚ)) {K k : ℕ} (h : k < K) :
    (thresholdVec s psx K).getD k none = threshold s psx k :=
  getD_map_range (threshold s psx) none h

lemma threshold_eq_some {s : List ℕ} {psx : List (List ℚ)} {k : ℕ}
    (h : classProbs s psx k ≠ []) : threshold s psx k = some (tqOf s psx k) := by
  unfold threshold tqOf
  simp [h]

lemma confidentBins_eq_map {s : List ℕ} {psx : List (List ℚ)} {K : ℕ} {row : List ℚ}
    (hrow : row.length = K) (hne : ∀ k, k < K → classProbs s psx k ≠ []) :
    confidentBins (thresholdVec s psx K) row =
      (List.range K).map (fun k => decide (tqOf s psx k - epsTol ≤ row.getD k 0)) := by
  apply List.ext_getElem
  · simp [confidentBins, thresholdVec, hrow]
  · intro i h1 h2
    have hiK : i < K := by simpa using h2
    have hts : i < (thresholdVec s psx K).length := by
      unfold thresholdVec
      simpa using hiK
    rw [List.getElem_map, List.getElem_range]
    unfold confidentBins
    rw [List.getElem_zipWith]
    have ht : (thresholdVec s psx K)[i] = threshold s psx i := by
      unfold thresholdVec
      rw [List.getElem_map, List.getElem_range]
    have hrl : i < row.length := by omega
    rw [ht, threshold_eq_some (hne i hiK)]
    show decide (tqOf s psx i - epsTol ≤ row[i]) =
      decide (tqOf s psx i - epsTol ≤ row.getD i 0)
    rw [List.getD_eq_getElem _ _ hrl]

lemma count_bins_eq_length_confidentSet {s : List ℕ} {psx : List (List ℚ)}
    {K : ℕ} {row : List ℚ} (hrow : row.length = K)
    (hne : ∀ k, k < K → classProbs s psx k ≠ []) :
    (confidentBins (thresholdVec s psx K) row).count true =
      (confidentSet (tqOf s psx) row K).length := by
  rw [confidentBins_eq_map hrow hne]
  unfold confidentSet
  rw [← List.countP_eq_length_filter, List.count_eq_countP, List.countP_map]
  apply List.countP_congr
  intro k _
  simp

lemma argmaxIdx_lt_length (l : List ℚ) (hne : l ≠ []) : argmaxIdx l < l.length := by
  induction l with
  | nil => simp at hne
  | cons x xs ih =>
    rw [argmaxIdx]
    by_cases h : listMax (x :: xs) ≤ x
    · simp [h]
    · rw [if_neg h]
      have hxs : xs ≠ [] := by
        rintro rfl
        exact h (le_refl x)
      have := ih hxs
      rw [List.length_cons]
      omega

lemma mem_confidentSet_iff {tq : ℕ → ℚ} {row : List ℚ} {K k : ℕ} :
    k ∈ confidentSet tq row K ↔ k < K ∧ tq k - epsTol ≤ row.getD k 0 := by
  unfold confidentSet
  simp

lemma contribCol_def (ts : List (Option ℚ)) (row : List ℚ) :
    contribCol ts row =
      if (confidentBins ts row).count true = 1
      then some ((confidentBins ts row).findIdx (fun b => b))
      else if 1 < (confidentBins ts row).count true then some (argmaxIdx row)
      else none := rfl

lemma contribCol_eq_specContrib {s : List ℕ} {psx : List (List ℚ)} {K : ℕ}
    {row : List ℚ} (hrow : row.length = K)
    (hne : ∀ k, k < K → classProbs s psx k ≠ []) :
    contribCol (thresholdVec s psx K) row = specContrib (tqOf s psx) K row := by
  have hcnt := count_bins_eq_length_confidentSet hrow hne
  have hbinlen : (confidentBins (thresholdVec s psx K) row).length = K := by
    rw [confidentBins_eq_map hrow hne]
    simp
  rw [contribCol_def]
  unfold specContrib
  rcases hcs : confidentSet (tqOf s psx) row K with _ | ⟨k, _ | ⟨k2, rest⟩⟩
  · rw [hcs] at hcnt
    simp only [List.length_nil] at hcnt
    rw [hcnt]
    norm_num
  · rw [hcs] at hcnt
    simp only [List.length_cons, List.length_nil] at hcnt
    norm_num at hcnt
    have hkmem : k ∈ confidentSet (tqOf s psx) row K := by
      rw [hcs]
      exact List.mem_cons_self k []
    have hk := mem_confidentSet_iff.mp hkmem
    have hfi : (confidentBins (thresholdVec s psx K) row).findIdx (fun b => b) = k := by
      apply findIdx_eq_of_unique_true (by omega) ?_ hcnt
      rw [confidentBins_eq_map hrow hne, getD_map_range _ false hk.1]
      simpa using hk.2
    rw [hcnt, if_pos rfl, hfi]
  · rw [hcs] at hcnt
    simp only [List.length_cons] at hcnt
    have h2 : 1 < (confidentBins (thresholdVec s psx K) row).count true := by
      omega
    rw [if_neg (by omega), if_pos h2]

lemma contribCol_lt {ts : List (Option ℚ)} {row : List ℚ} {K c : ℕ}
    (hts : ts.length = K) (hrow : row.length = K)
    (h : contribCol ts row = some c) : c < K := by
  unfold contribCol at h
  by_cases h1 : (confidentBins ts row).count true = 1
  · rw [if_pos h1] at h
    have hex : ∃ x ∈ confidentBins ts row, (fun b => b) x = true := by
      have : 0 < (confidentBins ts row).count true := by omega
      have hmem := List.count_pos_iff.mp this
      exact ⟨true, hmem, rfl⟩
    have hlt := List.findIdx_lt_length_of_exists hex
    have hlen : (confidentBins ts row).length = K := by
      unfold confidentBins
      rw [List.length_zipWith, hts, hrow]
      simp
    rw [← Option.some_inj.mp h] at *
    omega
  · rw [if_neg h1] at h
    by_cases h2 : 1 < (confidentBins ts row).count true
    · rw [if_pos h2] at h
      have hbne : confidentBins ts row ≠ [] := by
        intro hnil
        rw [hnil] at h2
        simp at h2
      have hrne : row ≠ [] := by
        intro hnil
        unfold confidentBins at hbne
        rw [hnil] at hbne
        simp at hbne
      have := argmaxIdx_lt_length row hrne
      rw [← Option.some_inj.mp h]
      omega
    · rw [if_neg h2] at h
      exact absurd h (by simp)

lemma foldl_jointStep {K : ℕ} {ts : List (Option ℚ)} (l : List (ℕ × List ℚ))
    (hin : ∀ p ∈ l, ∀ c, contribCol ts p.2 = some c → p.1 < K ∧ c < K)
    (jm0 : ℕ → ℕ → ℕ) :
    ∃ jm, l.foldl (jointStep K ts) (some jm0) = some jm ∧
      ∀ a b, jm a b = jm0 a b +
        l.countP (fun p => decide (p.1 = a ∧ contribCol ts p.2 = some b)) := by
  induction l generalizing jm0 with
  | nil => exact ⟨jm0, rfl, fun a b => by simp⟩
  | cons p l ih =>
    rw [List.foldl_cons]
    rcases hc : contribCol ts p.2 with _ | c
    · have hstep : jointStep K ts (some jm0) p = some jm0 := by
        have h0 : jointStep K ts (some jm0) p =
            (match contribCol ts p.2 with
              | none => some jm0
              | some c => if p.1 < K ∧ c < K then some (bumpCell jm0 p.1 c)
                else none) := rfl
        rw [h0, hc]
      rw [hstep]
      obtain ⟨jm, hfold, hval⟩ := ih (fun q hq => hin q (List.mem_cons_of_mem p hq)) jm0
      refine ⟨jm, hfold, fun a b => ?_⟩
      rw [hval a b, List.countP_cons]
      have hpred : decide (p.1 = a ∧ contribCol ts p.2 = some b) = false := by
        simp [hc]
      rw [hpred]
      simp
    · have hrange := hin p (List.mem_cons_self p l) c hc
      have hstep : jointStep K ts (some jm0) p = some (bumpCell jm0 p.1 c) := by
        have h0 : jointStep K ts (some jm0) p =
            (match contribCol ts p.2 with
              | none => some jm0
              | some c => if p.1 < K ∧ c < K then some (bumpCell jm0 p.1 c)
                else none) := rfl
        rw [h0, hc]
        show (if p.1 < K ∧ c < K then some (bumpCell jm0 p.1 c) else none) =
          some (bumpCell jm0 p.1 c)
        rw [if_pos hrange]
      rw [hstep]
      obtain ⟨jm, hfold, hval⟩ := ih (fun q hq => hin q (List.mem_cons_of_mem p hq))
        (bumpCell jm0 p.1 c)
      refine ⟨jm, hfold, fun a b => ?_⟩
      rw [hval a b, List.countP_cons]
      unfold bumpCell
      by_cases hab : a = p.1 ∧ b = c
      · have hpred : decide (p.1 = a ∧ contribCol ts p.2 = some b) = true := by
          rw [hc]
          simp [hab.1.symm, hab.2.symm]
        rw [if_pos hab, hpred]
        simp
        omega
      · have hpred : decide (p.1 = a ∧ contribCol ts p.2 = some b) = false := by
          rw [hc]
          by_cases h1 : p.1 = a
          · have h2 : ¬ c = b := fun h => hab ⟨h1.symm, h.symm⟩
            simp [h1, h2]
          · simp [h1]
        rw [if_neg hab, hpred]
        norm_num

lemma rawJoint_eq {s : List ℕ} {psx : List (List ℚ)} {K : ℕ}
    (hlen : s.length = psx.length) (hK : ∀ x ∈ s, x < K)
    (hrow : ∀ r ∈ psx, r.length = K) :
    ∃ jm, rawJoint s psx K = some jm ∧ ∀ a b,
      jm a b = (s.zip psx).countP
        (fun p => decide (p.1 = a ∧ contribCol (thresholdVec s psx K) p.2 = some b)) := by
  unfold rawJoint
  have hin : ∀ p ∈ s.zip psx, ∀ c,
      contribCol (thresholdVec s psx K) p.2 = some c → p.1 < K ∧ c < K := by
    intro p hp c hc
    obtain ⟨h1, h2⟩ := List.of_mem_zip hp
    refine ⟨hK p.1 h1, contribCol_lt ?_ (hrow p.2 h2) hc⟩
    unfold thresholdVec
    simp
  obtain ⟨jm, hfold, hval⟩ := foldl_jointStep (s.zip psx) hin emptyJoint
  refine ⟨jm, hfold, fun a b => ?_⟩
  rw [hval a b]
  unfold emptyJoint
  omega

/-- C1: for every example with observed label `s_i`, the raw confident
joint counts exactly as the spec says: if the confident set
(`probs[i][k] >= threshold[k] - epsilon`, boundary inclusive) has exactly
one member `k*`, cell `(s_i, k*)` is incremented; if it has more than
one member, cell `(s_i, argmax probs[i])` is incremented; if it is
empty, nothing is incremented for that example. -/
theorem C1_confident_joint_rule (s : List ℕ) (psx : List (List ℚ)) (K : ℕ)
    (hlen : s.length = psx.length) (hK : ∀ x ∈ s, x < K)
    (hrow : ∀ r ∈ psx, r.length = K)
    (hne : ∀ k, k < K → classProbs s psx k ≠ []) :
    ∃ jm, rawJoint s psx K = some jm ∧ ∀ a b,
      jm a b = (s.zip psx).countP
        (fun p => decide (p.1 = a ∧ specContrib (tqOf s psx) K p.2 = some b)) := by
  obtain ⟨jm, hjm, hval⟩ := rawJoint_eq hlen hK hrow
  refine ⟨jm, hjm, fun a b => ?_⟩
  rw [hval a b]
  apply List.countP_congr
  intro p hp
  have h2 := (List.of_mem_zip hp).2
  rw [contribCol_eq_specContrib (hrow p.2 h2) hne]

/-- Witness for C1 at a concrete input. -/
theorem C1_confident_joint_rule_witness :
    (([0, 1] : List ℕ).length = ([[9/10, 1/10], [1/10, 9/10]] : List (List ℚ)).length ∧
      (∀ x ∈ ([0, 1] : List ℕ), x < 2) ∧
      (∀ r ∈ ([[9/10, 1/10], [1/10, 9/10]] : List (List ℚ)), r.length = 2) ∧
      (∀ k, k < 2 → classProbs [0, 1] [[9/10, 1/10], [1/10, 9/10]] k ≠ [])) ∧
    (∃ jm, rawJoint [0, 1] [[9/10, 1/10], [1/10, 9/10]] 2 = some jm ∧ ∀ a b,
      jm a b = (([0, 1] : List ℕ).zip [[9/10, 1/10], [1/10, 9/10]]).countP
        (fun p => decide (p.1 = a ∧
          specContrib (tqOf [0, 1] [[9/10, 1/10], [1/10, 9/10]]) 2 p.2 = some b))) :=
  ⟨⟨by decide, by decide, by decide, by decide⟩,
    C1_confident_joint_rule [0, 1] [[9/10, 1/10], [1/10, 9/10]] 2
      (by decide) (by decide) (by decide) (by decide)⟩

/-! ### STEP 1: calibration invariants -/

lemma sum_map_add_nat {α : Type} (l : List α) (f g : α → ℕ) :
    (l.map (fun x => f x + g x)).sum = (l.map f).sum + (l.map g).sum := by
  induction l with
  | nil => simp
  | cons a t ih =>
    simp only [List.map_cons, List.sum_cons, ih]
    omega

lemma sum_map_ite_mem (L : ℕ) (bumped : List ℕ) :
    ((List.range L).map (fun c => if c ∈ bumped then (1 : ℕ) else 0)).sum =
      (List.range L).countP (fun c => decide (c ∈ bumped)) := by
  induction L with
  | zero => simp
  | succ n ih =>
    rw [List.range_succ, List.map_append, List.sum_append, List.countP_append, ih]
    by_cases h : n ∈ bumped <;> simp [h]

lemma countP_mem_eq_length {bumped : List ℕ} {L : ℕ}
    (hsub : ∀ c ∈ bumped, c < L) (hnd : bumped.Nodup) :
    (List.range L).countP (fun c => decide (c ∈ bumped)) = bumped.length := by
  rw [List.countP_eq_length_filter]
  have hperm : List.Perm ((List.range L).filter (fun c => decide (c ∈ bumped))) bumped := by
    rw [List.perm_iff_count]
    intro a
    by_cases ha : a ∈ bumped
    · have hfn : ((List.range L).filter (fun c => decide (c ∈ bumped))).Nodup :=
        (List.nodup_range L).filter _
      have hmemf : a ∈ (List.range L).filter (fun c => decide (c ∈ bumped)) := by
        rw [List.mem_filter]
        exact ⟨List.mem_range.mpr (hsub a ha), by simpa using ha⟩
      rw [List.count_eq_one_of_mem hfn hmemf, List.count_eq_one_of_mem hnd ha]
    · rw [List.count_eq_zero_of_not_mem, List.count_eq_zero_of_not_mem ha]
      intro hmem
      rw [List.mem_filter] at hmem
      exact ha (by simpa using hmem.2)
  exact hperm.length_eq

lemma scaledRow_nonneg {row : List ℕ} {target : ℕ} {q : ℚ}
    (h : q ∈ scaledRow row target) : 0 ≤ q := by
  unfold scaledRow at h
  obtain ⟨x, _, rfl⟩ := List.mem_map.mp h
  apply div_nonneg
  · positivity
  · positivity

lemma scaledRow_length (row : List ℕ) (target : ℕ) :
    (scaledRow row target).length = row.length := by
  unfold scaledRow
  rw [List.length_map]

lemma scaledRow_sum {row : List ℕ} (target : ℕ) (hz : row.sum ≠ 0) :
    (scaledRow row target).sum = target := by
  unfold scaledRow
  have h1 : ∀ x ∈ row, (x : ℚ) * target / (row.sum : ℚ)
      = (x : ℚ) * ((target : ℚ) / (row.sum : ℚ)) := by
    intro x _
    ring
  rw [List.map_congr_left h1,
    List.sum_map_mul_right row (fun x : ℕ => (x : ℚ)) ((target : ℚ) / (row.sum : ℚ))]
  have h3 : (List.map (fun x : ℕ => (x : ℚ)) row).sum = ((row.sum : ℚ)) := by
    rw [Nat.cast_list_sum]
  rw [h3]
  have hz2 : ((row.sum : ℚ)) ≠ 0 := by exact_mod_cast hz
  have hz3 : (List.map (Nat.cast : ℕ → ℚ) row).sum ≠ (0 : ℚ) := by
    rw [← Nat.cast_list_sum]
    exact_mod_cast hz
  field_simp

lemma floorsOf_length (scaled : List ℚ) : (floorsOf scaled).length = scaled.length := by
  unfold floorsOf
  simp

lemma floorsOf_sum_le {scaled : List ℚ} (h : ∀ q ∈ scaled, 0 ≤ q) :
    (((floorsOf scaled).sum : ℚ)) ≤ scaled.sum := by
  induction scaled with
  | nil => simp [floorsOf]
  | cons q t ih =>
    have hq := h q (List.mem_cons_self q t)
    have ht := ih (fun x hx => h x (List.mem_cons_of_mem q hx))
    have hfl : floorsOf (q :: t) = ⌊q⌋.toNat :: floorsOf t := rfl
    have h0 : (0 : ℤ) ≤ ⌊q⌋ := Int.floor_nonneg.mpr hq
    have h1 : ((⌊q⌋.toNat : ℚ)) = ((⌊q⌋ : ℤ) : ℚ) := by
      exact_mod_cast congrArg (fun z : ℤ => (z : ℚ)) (Int.toNat_of_nonneg h0)
    have h2 : ((⌊q⌋.toNat : ℚ)) ≤ q := by
      rw [h1]
      exact Int.floor_le q
    rw [hfl, List.sum_cons, List.sum_cons, Nat.cast_add]
    linarith

lemma floorsOf_sum_gt {scaled : List ℚ} (hne : scaled ≠ [])
    (h : ∀ q ∈ scaled, 0 ≤ q) :
    scaled.sum - scaled.length < (((floorsOf scaled).sum : ℚ)) := by
  induction scaled with
  | nil => exact absurd rfl hne
  | cons q t ih =>
    have hq := h q (List.mem_cons_self q t)
    have hfl : floorsOf (q :: t) = ⌊q⌋.toNat :: floorsOf t := rfl
    have h0 : (0 : ℤ) ≤ ⌊q⌋ := Int.floor_nonneg.mpr hq
    have h1 : ((⌊q⌋.toNat : ℚ)) = ((⌊q⌋ : ℤ) : ℚ) := by
      exact_mod_cast congrArg (fun z : ℤ => (z : ℚ)) (Int.toNat_of_nonneg h0)
    have h2 : q - 1 < ((⌊q⌋.toNat : ℚ)) := by
      rw [h1]
      have := Int.lt_floor_add_one q
      linarith
    rw [hfl, List.sum_cons, List.sum_cons, Nat.cast_add, List.length_cons]
    rcases eq_or_ne t [] with rfl | htne
    · simp [floorsOf]
      push_cast
      linarith
    · have ht := ih htne (fun x hx => h x (List.mem_cons_of_mem q hx))
      have hle : (((floorsOf t).sum : ℚ)) ≤ t.sum :=
        floorsOf_sum_le (fun x hx => h x (List.mem_cons_of_mem q hx))
      push_cast
      push_cast at ht
      linarith

lemma bumpSet_subset {row : List ℕ} {target : ℕ} {c : ℕ}
    (h : c ∈ bumpSet row target) : c < row.length := by
  unfold bumpSet at h
  have h1 := List.mem_of_mem_take h
  have h2 := (List.perm_insertionSort (fracOrder (scaledRow row target))
    (List.range row.length)).mem_iff.mp h1
  exact List.mem_range.mp h2

lemma bumpSet_nodup (row : List ℕ) (target : ℕ) : (bumpSet row target).Nodup := by
  unfold bumpSet
  apply List.Nodup.sublist (List.take_sublist _ _)
  exact ((List.perm_insertionSort (fracOrder (scaledRow row target))
    (List.range row.length)).nodup_iff).mpr (List.nodup_range row.length)

lemma bumpSet_length {row : List ℕ} {target : ℕ} (hz : row.sum ≠ 0)
    (hle : (floorsOf (scaledRow row target)).sum ≤ target)
    (hres : target - (floorsOf (scaledRow row target)).sum ≤ row.length) :
    (bumpSet row target).length = target - (floorsOf (scaledRow row target)).sum := by
  unfold bumpSet
  rw [List.length_take, List.length_insertionSort, List.length_range]
  omega

lemma calibrateRow_sum (row : List ℕ) (target : ℕ)
    (h0 : row.sum = 0 → target = 0) : (calibrateRow row target).sum = target := by
  unfold calibrateRow
  by_cases hz : row.sum = 0
  · rw [if_pos hz, hz]
    exact (h0 hz).symm
  · rw [if_neg hz]
    have hnn : ∀ q ∈ scaledRow row target, 0 ≤ q := fun q hq => scaledRow_nonneg hq
    have hssum := scaledRow_sum target hz
    have hlen := scaledRow_length row target
    have hrne : row ≠ [] := by
      intro h
      rw [h] at hz
      simp at hz
    have hsne : scaledRow row target ≠ [] := by
      intro hnil
      have hlen0 := scaledRow_length row target
      rw [hnil] at hlen0
      exact hrne (List.length_eq_zero.mp hlen0.symm)
    have hfle : (floorsOf (scaledRow row target)).sum ≤ target := by
      have := floorsOf_sum_le hnn
      rw [hssum] at this
      exact_mod_cast this
    have hfgt : (target : ℚ) - row.length < ((floorsOf (scaledRow row target)).sum : ℚ) := by
      have := floorsOf_sum_gt hsne hnn
      rw [hssum, hlen] at this
      exact this
    have hres : target - (floorsOf (scaledRow row target)).sum ≤ row.length := by
      have h2 : (target : ℚ) < ((floorsOf (scaledRow row target)).sum : ℚ) + row.length := by
        linarith
      have h3 : target < (floorsOf (scaledRow row target)).sum + row.length := by
        exact_mod_cast h2
      omega
    rw [sum_map_add_nat]
    have hfl : ((List.range row.length).map
        (fun c => (floorsOf (scaledRow row target)).getD c 0)).sum =
        (floorsOf (scaledRow row target)).sum := by
      have heq : row.length = (floorsOf (scaledRow row target)).length := by
        rw [floorsOf_length, hlen]
      rw [heq, map_getD_range]
    rw [hfl, sum_map_ite_mem,
      countP_mem_eq_length (fun c hc => bumpSet_subset hc) (bumpSet_nodup row target),
      bumpSet_length hz hfle hres]
    omega

lemma calibrateRow_length (row : List ℕ) (target : ℕ) :
    (calibrateRow row target).length = row.length := by
  unfold calibrateRow
  by_cases hz : row.sum = 0
  · rw [if_pos hz]
  · rw [if_neg hz]
    simp

lemma contribCol_isSome_of_pos {ts : List (Option ℚ)} {row : List ℚ}
    (h : 0 < (confidentBins ts row).count true) :
    ∃ c, contribCol ts row = some c := by
  rw [contribCol_def]
  by_cases h1 : (confidentBins ts row).count true = 1
  · rw [if_pos h1]
    exact ⟨_, rfl⟩
  · rw [if_neg h1, if_pos (by omega)]
    exact ⟨_, rfl⟩

lemma classProbs_ne_nil {s : List ℕ} {psx : List (List ℚ)} {a : ℕ}
    (hlen : s.length = psx.length) (h : s.count a ≠ 0) :
    classProbs s psx a ≠ [] := by
  have ha : a ∈ s := List.count_pos_iff.mp (Nat.pos_of_ne_zero h)
  obtain ⟨i, hi, hgi⟩ := List.mem_iff_getElem.mp ha
  have hip : i < psx.length := by omega
  have hzlen : i < (s.zip psx).length := by
    rw [List.length_zip]
    omega
  have hmem : (s[i], psx[i]) ∈ s.zip psx := by
    have hgz := List.getElem_zip (h := hzlen)
    rw [← hgz]
    exact List.getElem_mem hzlen
  intro hnil
  have hpm : (psx[i]).getD a 0 ∈ classProbs s psx a := by
    unfold classProbs
    rw [List.mem_filterMap]
    refine ⟨(s[i], psx[i]), hmem, ?_⟩
    simp [hgi]
  rw [hnil] at hpm
  simp at hpm

lemma raw_rowsum_ne_zero {s : List ℕ} {psx : List (List ℚ)} {K a : ℕ}
    {jm : ℕ → ℕ → ℕ}
    (hlen : s.length = psx.length) (hK : ∀ x ∈ s, x < K)
    (hrow : ∀ r ∈ psx, r.length = K)
    (hval : ∀ x y, jm x y = (s.zip psx).countP
      (fun p => decide (p.1 = x ∧ contribCol (thresholdVec s psx K) p.2 = some y)))
    (ha : a < K) (hc : s.count a ≠ 0) :
    ((List.range K).map (jm a)).sum ≠ 0 := by
  have hne := classProbs_ne_nil hlen hc
  obtain ⟨p, hp, hpe⟩ := exists_ge_mean hne
  obtain ⟨q, hq, hqe⟩ : ∃ q ∈ s.zip psx,
      (if q.1 = a then some (q.2.getD a 0) else none) = some p :=
    List.mem_filterMap.mp hp
  have hq1 : q.1 = a := by
    by_contra hne2
    rw [if_neg hne2] at hqe
    exact Option.noConfusion hqe
  have hq2 : q.2.getD a 0 = p := by
    rw [if_pos hq1] at hqe
    exact Option.some_inj.mp hqe
  obtain ⟨hqs, hqp⟩ := List.of_mem_zip hq
  have hrlen : q.2.length = K := hrow q.2 hqp
  have htlen : (thresholdVec s psx K).length = K := by
    unfold thresholdVec
    simp
  have hblen : (confidentBins (thresholdVec s psx K) q.2).length = K := by
    unfold confidentBins
    rw [List.length_zipWith, htlen, hrlen]
    simp
  have hbin : (confidentBins (thresholdVec s psx K) q.2).getD a false = true := by
    unfold confidentBins
    rw [getD_zipWith confidentBin _ _ none 0 false (by omega) (by omega)]
    rw [thresholdVec_getD s psx ha, threshold_eq_some hne]
    show decide (tqOf s psx a - epsTol ≤ q.2.getD a 0) = true
    rw [hq2]
    unfold tqOf
    simpa using hpe
  have hpos : 0 < (confidentBins (thresholdVec s psx K) q.2).count true := by
    apply List.count_pos_iff.mpr
    rw [← hbin]
    exact getD_mem_of_lt _ false (by omega)
  obtain ⟨c, hcc⟩ := contribCol_isSome_of_pos hpos
  have hcK : c < K := contribCol_lt htlen hrlen hcc
  have hjm : 0 < jm a c := by
    rw [hval a c]
    apply List.countP_pos.mpr
    refine ⟨q, hq, ?_⟩
    simp [hq1, hcc]
  have hmem2 : jm a c ∈ (List.range K).map (jm a) :=
    List.mem_map.mpr ⟨c, List.mem_range.mpr hcK, rfl⟩
  have hle := List.single_le_sum (fun x _ => Nat.zero_le x) _ hmem2
  omega

lemma sum_map_ite_eq {K x : ℕ} (hx : x < K) :
    ((List.range K).map (fun a => if x = a then (1 : ℕ) else 0)).sum = 1 := by
  induction K with
  | zero => omega
  | succ n ih =>
    rw [List.range_succ, List.map_append, List.sum_append]
    simp only [List.map_cons, List.map_nil, List.sum_cons, List.sum_nil]
    rcases Nat.lt_or_ge x n with h | h
    · rw [ih h, if_neg (by omega)]
      omega
    · have hxn : x = n := by omega
      subst hxn
      rw [if_pos rfl]
      have h0 : ((List.range x).map (fun a => if x = a then (1 : ℕ) else 0)).sum = 0 := by
        apply List.sum_eq_zero
        intro y hy
        obtain ⟨a, ha, rfl⟩ := List.mem_map.mp hy
        rw [if_neg]
        intro hcon
        rw [← hcon] at ha
        exact absurd (List.mem_range.mp ha) (lt_irrefl x)
      rw [h0]
      omega

lemma sum_map_getD_eq {l : List ℕ} {K : ℕ} (h : l.length = K) :
    ((List.range K).map (fun c => l.getD c 0)).sum = l.sum := by
  subst h
  rw [map_getD_range]

lemma sum_count_range {s : List ℕ} {K : ℕ} (hK : ∀ x ∈ s, x < K) :
    ((List.range K).map (fun a => s.count a)).sum = s.length := by
  induction s with
  | nil => simp
  | cons x t ih =>
    have hx := hK x (List.mem_cons_self x t)
    have ht := ih (fun y hy => hK y (List.mem_cons_of_mem x hy))
    have h1 : ∀ a ∈ List.range K, (x :: t).count a = t.count a + if x = a then 1 else 0 := by
      intro a _
      rw [List.count_cons]
      by_cases h : x = a <;> simp [h]
    rw [List.map_congr_left h1, sum_map_add_nat, ht, sum_map_ite_eq hx, List.length_cons]

/-- C2: for every valid input, after calibration each row of the
confident joint sums to the number of examples carrying that observed
label, and the whole matrix sums to `n` exactly, despite the
integer rounding with residual distribution. -/
theorem C2_calibration_invariants (s : List ℕ) (psx : List (List ℚ)) (K : ℕ)
    (hlen : s.length = psx.length) (hK : ∀ x ∈ s, x < K)
    (hrow : ∀ r ∈ psx, r.length = K) :
    ∃ jm, rawJoint s psx K = some jm ∧
      (∀ a, a < K → ((List.range K).map (calibrate jm s K a)).sum = s.count a) ∧
      ((List.range K).map (fun a => ((List.range K).map (calibrate jm s K a)).sum)).sum
        = s.length := by
  obtain ⟨jm, hjm, hval⟩ := rawJoint_eq hlen hK hrow
  have hrowsum : ∀ a, a < K →
      ((List.range K).map (calibrate jm s K a)).sum = s.count a := by
    intro a ha
    have h1 : ∀ b ∈ List.range K, calibrate jm s K a b =
        (calibrateRow ((List.range K).map (jm a)) (s.count a)).getD b 0 := by
      intro b hb
      unfold calibrate
      rw [if_pos ⟨ha, List.mem_range.mp hb⟩]
    rw [List.map_congr_left h1]
    have hcallen : (calibrateRow ((List.range K).map (jm a)) (s.count a)).length = K := by
      rw [calibrateRow_length]
      simp
    rw [sum_map_getD_eq hcallen]
    apply calibrateRow_sum
    intro hz
    by_contra hcz
    exact raw_rowsum_ne_zero hlen hK hrow hval ha hcz hz
  refine ⟨jm, hjm, hrowsum, ?_⟩
  have h3 : ∀ a ∈ List.range K, ((List.range K).map (calibrate jm s K a)).sum = s.count a :=
    fun a ha => hrowsum a (List.mem_range.mp ha)
  rw [List.map_congr_left h3, sum_count_range hK]

/-- Witness for C2 at a concrete input. -/
theorem C2_calibration_invariants_witness :
    (([0, 1] : List ℕ).length = ([[9/10, 1/10], [1/10, 9/10]] : List (List ℚ)).length ∧
      (∀ x ∈ ([0, 1] : List ℕ), x < 2) ∧
      (∀ r ∈ ([[9/10, 1/10], [1/10, 9/10]] : List (List ℚ)), r.length = 2)) ∧
    (∃ jm, rawJoint [0, 1] [[9/10, 1/10], [1/10, 9/10]] 2 = some jm ∧
      (∀ a, a < 2 →
        ((List.range 2).map (calibrate jm [0, 1] 2 a)).sum = ([0, 1] : List ℕ).count a) ∧
      ((List.range 2).map
        (fun a => ((List.range 2).map (calibrate jm [0, 1] 2 a)).sum)).sum
        = ([0, 1] : List ℕ).length) :=
  ⟨⟨by decide, by decide, by decide⟩,
    C2_calibration_invariants [0, 1] [[9/10, 1/10], [1/10, 9/10]] 2
      (by decide) (by decide) (by decide)⟩

/-! ### STEP 2: protected classes, crash on overfull prune counts -/

/-- C9: a true class whose observed count does not exceed
`MIN_NUM_PER_CLASS` contributes an all-false per-class noise mask (the
guard takes the else branch), so no example is flagged on its account,
and this degenerate configuration is non-fatal. -/
theorem C9_protected_class_empty_mask (s : List ℕ) (psx : List (List ℚ))
    (pc : ℕ → ℕ → ℕ) (K minPer k : ℕ) (h : s.count k ≤ minPer) :
    classMask s psx pc K minPer k = some (fun _ => false) := by
  unfold classMask
  rw [if_neg (by omega)]

/-- Witness for C9 at a concrete input. -/
theorem C9_protected_class_empty_mask_witness :
    (([0] : List ℕ).count 1 ≤ 1) ∧
    classMask [0] [[1/2]] (fun _ _ => 0) 1 1 1 = some (fun _ => false) :=
  ⟨by decide, C9_protected_class_empty_mask [0] [[1/2]] (fun _ _ => 0) 1 1 1 (by decide)⟩

lemma foldl_bind_none {α β : Type} (g : β → α → Option α) (l : List β) :
    l.foldl (fun acc x => acc.bind (g x)) none = none := by
  induction l with
  | nil => rfl
  | cons b t ih =>
    rw [List.foldl_cons]
    have h0 : (none : Option α).bind (g b) = none := rfl
    rw [h0, ih]

lemma foldl_bind_eq_none {α β : Type} (g : β → α → Option α) (l : List β) (b : β)
    (hb : b ∈ l) (hg : ∀ m, g b m = none) (acc : Option α) :
    l.foldl (fun acc x => acc.bind (g x)) acc = none := by
  induction l generalizing acc with
  | nil => simp at hb
  | cons x t ih =>
    rw [List.foldl_cons]
    rcases List.mem_cons.mp hb with rfl | hbt
    · have h1 : acc.bind (g b) = none := by
        cases acc with
        | none => rfl
        | some m => exact hg m
      rw [h1]
      exact foldl_bind_none g t
    · exact ih hbt _

lemma descSorted_length_aux (l : List ℚ) : (descSorted l).length = l.length := by
  unfold descSorted
  rw [List.length_insertionSort]

lemma kthLargest_none {l : List ℚ} {m : ℕ} (h : l.length < m) :
    kthLargest l m = none := by
  unfold kthLargest
  rw [List.get?_eq_getElem?]
  apply List.getElem?_eq_none
  rw [descSorted_length_aux]
  omega

lemma classMask_none {s : List ℕ} {psx : List (List ℚ)} {pc : ℕ → ℕ → ℕ}
    {K minPer k j : ℕ} (hguard : minPer < s.count k) (hjK : j < K) (hne : k ≠ j)
    (hpos : 0 < pc k j) (hnone : pairMask s psx k j (pc k j) = none) :
    classMask s psx pc K minPer k = none := by
  unfold classMask
  rw [if_pos hguard]
  exact foldl_bind_eq_none (pairGo s psx pc k) (List.range K) j
    (List.mem_range.mpr hjK)
    (fun m => by
      unfold pairGo
      rw [if_pos ⟨hne, hpos⟩, hnone]
      rfl)
    _

lemma combinedMask_none {s : List ℕ} {psx : List (List ℚ)} {pc : ℕ → ℕ → ℕ}
    {K minPer k : ℕ} (hk : k < K)
    (hcm : classMask s psx pc K minPer k = none) :
    combinedMask s psx pc K minPer = none := by
  unfold combinedMask
  exact foldl_bind_eq_none (fun k m => (classMask s psx pc K minPer k).map (orMask m))
    (List.range K) k (List.mem_range.mpr hk)
    (fun m => by
      show (classMask s psx pc K minPer k).map (orMask m) = none
      rw [hcm]
      rfl)
    _

/-- C10: implicit precondition of the STEP 2 selection: if an active
`(k, j)` pair asks to prune more examples than carry observed label `j`
(including the case of zero such examples), `np.partition` is invoked
with an out-of-range order statistic and error selection raises instead
of returning a flagged set. -/
theorem C10_overfull_prune_count_raises (jm : ℕ → ℕ → ℕ) (s : List ℕ)
    (psx : List (List ℚ)) (K minPer k j : ℕ) (hk : k < K) (hj : j < K)
    (hguard : minPer < s.count k) (hne : k ≠ j)
    (hpos : 0 < adjustedPrune jm s K minPer k j)
    (hover : (labelIndices s j).length < adjustedPrune jm s K minPer k j) :
    selectErrors jm s psx K minPer = none := by
  have hpm : pairMask s psx k j (adjustedPrune jm s K minPer k j) = none := by
    unfold pairMask
    rw [kthLargest_none]
    · rfl
    · rw [List.length_map]
      exact hover
  have hcm := classMask_none hguard hj hne hpos hpm
  unfold selectErrors
  rw [combinedMask_none hk hcm]
  rfl

/-- Witness for C10 at a concrete input. -/
theorem C10_overfull_prune_count_raises_witness :
    (0 < 2 ∧ 1 < 2 ∧ 1 < ([0, 0] : List ℕ).count 0 ∧ (0 : ℕ) ≠ 1 ∧
      0 < adjustedPrune (fun _ _ => 5) [0, 0] 2 1 0 1 ∧
      (labelIndices [0, 0] 1).length < adjustedPrune (fun _ _ => 5) [0, 0] 2 1 0 1) ∧
    selectErrors (fun _ _ => 5) [0, 0] [[1/2, 1/2], [1/2, 1/2]] 2 1 = none :=
  ⟨⟨by decide, by decide, by decide, by decide, by decide, by decide⟩,
    C10_overfull_prune_count_raises (fun _ _ => 5) [0, 0] [[1/2, 1/2], [1/2, 1/2]]
      2 1 0 1 (by decide) (by decide) (by decide) (by decide) (by decide) (by decide)⟩

/-! ### STEP 2: prediction override and ranking -/

lemma selectErrors_extract {jm : ℕ → ℕ → ℕ} {s : List ℕ} {psx : List (List ℚ)}
    {K minPer : ℕ} {out : List ℕ}
    (h : selectErrors jm s psx K minPer = some out) :
    ∃ mask, combinedMask s psx (adjustedPrune jm s K minPer) K minPer = some mask ∧
      rankErrors s psx mask = out := by
  unfold selectErrors at h
  cases hcm : combinedMask s psx (adjustedPrune jm s K minPer) K minPer with
  | none =>
    rw [hcm] at h
    exact absurd h (by simp)
  | some m =>
    rw [hcm] at h
    exact ⟨m, rfl, Option.some_inj.mp (by simpa using h)⟩

lemma mem_rankErrors_iff {s : List ℕ} {psx : List (List ℚ)} {mask : ℕ → Bool}
    {i : ℕ} :
    i ∈ rankErrors s psx mask ↔
      i ∈ (List.range s.length).filter (fun i => stepD s psx mask i) := by
  unfold rankErrors
  constructor
  · intro h
    obtain ⟨pr, hpr, hpe⟩ := List.mem_map.mp h
    have hperm := List.perm_insertionSort rankOrder
      (((List.range s.length).filter (fun i => stepD s psx mask i)).map
        (fun i => (marginOf s psx i, i)))
    have hpr2 := hperm.mem_iff.mp hpr
    obtain ⟨i0, hi0, hpe2⟩ := List.mem_map.mp hpr2
    rw [← hpe, ← hpe2]
    exact hi0
  · intro h
    apply List.mem_map.mpr
    refine ⟨(marginOf s psx i, i), ?_, rfl⟩
    apply (List.perm_insertionSort rankOrder _).mem_iff.mpr
    exact List.mem_map.mpr ⟨i, h, rfl⟩

/-- C6: the prediction override removes every flag whose row argmax
equals its observed label, so no such index ever appears in the output;
consequently, when the predicted class agrees with the observed label on
every example, a successful error selection returns an empty list. -/
theorem C6_prediction_override (jm : ℕ → ℕ → ℕ) (s : List ℕ) (psx : List (List ℚ))
    (K minPer : ℕ) (out : List ℕ)
    (h : selectErrors jm s psx K minPer = some out) :
    (∀ i, argmaxIdx (psx.getD i []) = s.getD i 0 → i ∉ out) ∧
    ((∀ i, i < s.length → argmaxIdx (psx.getD i []) = s.getD i 0) → out = []) := by
  obtain ⟨mask, hmask, rfl⟩ := selectErrors_extract h
  constructor
  · intro i hag hmem
    have h2 := List.mem_filter.mp (mem_rankErrors_iff.mp hmem)
    have h3 : stepD s psx mask i = true := by simpa using h2.2
    unfold stepD at h3
    rw [hag] at h3
    simp at h3
  · intro hall
    have hf : (List.range s.length).filter (fun i => stepD s psx mask i) = [] := by
      apply List.filter_eq_nil.mpr
      intro i hi
      unfold stepD
      rw [hall i (List.mem_range.mp hi)]
      simp
    unfold rankErrors
    rw [hf]
    rfl

/-- Witness for C6 at a concrete input. -/
theorem C6_prediction_override_witness :
    selectErrors (fun _ _ => 0) [0, 1] [[9/10, 1/10], [1/10, 9/10]] 2 0 = some [] ∧
    ((∀ i, argmaxIdx (([[9/10, 1/10], [1/10, 9/10]] : List (List ℚ)).getD i []) =
        ([0, 1] : List ℕ).getD i 0 → i ∉ ([] : List ℕ)) ∧
      ((∀ i, i < ([0, 1] : List ℕ).length →
        argmaxIdx (([[9/10, 1/10], [1/10, 9/10]] : List (List ℚ)).getD i []) =
          ([0, 1] : List ℕ).getD i 0) → ([] : List ℕ) = [])) :=
  ⟨by decide,
    C6_prediction_override (fun _ _ => 0) [0, 1] [[9/10, 1/10], [1/10, 9/10]] 2 0 []
      (by decide)⟩

lemma rankErrors_pairs_margin {s : List ℕ} {psx : List (List ℚ)} {mask : ℕ → Bool} :
    ∀ pr ∈ ((List.range s.length).filter (fun i => stepD s psx mask i)).map
      (fun i => (marginOf s psx i, i)), pr.1 = marginOf s psx pr.2 := by
  intro pr hpr
  obtain ⟨i, _, rfl⟩ := List.mem_map.mp hpr
  rfl

/-- C5: the returned flagged indices are sorted by ascending margin
(self-confidence minus the row maximum), and the first element attains
the minimum margin among all flagged examples. -/
theorem C5_ranking_sorted (jm : ℕ → ℕ → ℕ) (s : List ℕ) (psx : List (List ℚ))
    (K minPer : ℕ) (out : List ℕ)
    (h : selectErrors jm s psx K minPer = some out) :
    List.Sorted (fun a b : ℚ => a ≤ b) (out.map (marginOf s psx)) ∧
    ∀ i ∈ out, marginOf s psx (out.getD 0 0) ≤ marginOf s psx i := by
  obtain ⟨mask, hmask, rfl⟩ := selectErrors_extract h
  have hsorted : List.Sorted rankOrder
      ((((List.range s.length).filter (fun i => stepD s psx mask i)).map
        (fun i => (marginOf s psx i, i))).insertionSort rankOrder) :=
    List.sorted_insertionSort rankOrder _
  have hinv : ∀ pr ∈ (((List.range s.length).filter (fun i => stepD s psx mask i)).map
      (fun i => (marginOf s psx i, i))).insertionSort rankOrder,
      pr.1 = marginOf s psx pr.2 := by
    intro pr hpr
    exact rankErrors_pairs_margin pr
      ((List.perm_insertionSort rankOrder _).mem_iff.mp hpr)
  have hout : rankErrors s psx mask =
      ((((List.range s.length).filter (fun i => stepD s psx mask i)).map
        (fun i => (marginOf s psx i, i))).insertionSort rankOrder).map Prod.snd := rfl
  rw [hout]
  constructor
  · rw [List.map_map]
    have hcong : ∀ pr ∈ (((List.range s.length).filter (fun i => stepD s psx mask i)).map
        (fun i => (marginOf s psx i, i))).insertionSort rankOrder,
        (marginOf s psx ∘ Prod.snd) pr = Prod.fst pr := by
      intro pr hpr
      exact (hinv pr hpr).symm
    rw [List.map_congr_left hcong]
    exact List.Pairwise.map Prod.fst (fun a b hab => hab) hsorted
  · intro i hi
    rcases hsp : (((List.range s.length).filter (fun i => stepD s psx mask i)).map
        (fun i => (marginOf s psx i, i))).insertionSort rankOrder with _ | ⟨pr0, sptail⟩
    · rw [hsp] at hi
      simp at hi
    · rw [hsp] at hi hsorted hinv
      have hhead : ((pr0 :: sptail).map Prod.snd).getD 0 0 = pr0.2 := rfl
      rw [hhead]
      obtain ⟨pr, hpr, hpri⟩ := List.mem_map.mp hi
      rcases List.mem_cons.mp hpr with rfl | hprt
      · rw [← hpri]
      · have hrel : rankOrder pr0 pr := (List.pairwise_cons.mp hsorted).1 pr hprt
        have h1 := hinv pr0 (List.mem_cons_self pr0 sptail)
        have h2 := hinv pr (List.mem_cons_of_mem pr0 hprt)
        rw [← hpri, ← h2, ← h1]
        exact hrel

unseal Rat.add Rat.sub Rat.mul Rat.inv

/-- Witness for C5 at a concrete input with a nonempty flagged list. -/
theorem C5_ranking_sorted_witness :
    selectErrors (fun a b => if a = 0 ∧ b = 1 then 2 else if a = 1 ∧ b = 1 then 3 else 0)
      [0, 0, 1, 1, 1]
      [[1/5, 9/10], [1/5, 9/10], [1/10, 9/10], [1/10, 9/10], [1/10, 9/10]] 2 1
      = some [0, 1] ∧
    (List.Sorted (fun a b : ℚ => a ≤ b)
      (([0, 1] : List ℕ).map (marginOf [0, 0, 1, 1, 1]
        [[1/5, 9/10], [1/5, 9/10], [1/10, 9/10], [1/10, 9/10], [1/10, 9/10]])) ∧
      ∀ i ∈ ([0, 1] : List ℕ),
        marginOf [0, 0, 1, 1, 1]
          [[1/5, 9/10], [1/5, 9/10], [1/10, 9/10], [1/10, 9/10], [1/10, 9/10]]
          (([0, 1] : List ℕ).getD 0 0) ≤
        marginOf [0, 0, 1, 1, 1]
          [[1/5, 9/10], [1/5, 9/10], [1/10, 9/10], [1/10, 9/10], [1/10, 9/10]] i) :=
  ⟨by decide,
    C5_ranking_sorted
      (fun a b => if a = 0 ∧ b = 1 then 2 else if a = 1 ∧ b = 1 then 3 else 0)
      [0, 0, 1, 1, 1]
      [[1/5, 9/10], [1/5, 9/10], [1/10, 9/10], [1/10, 9/10], [1/10, 9/10]] 2 1 [0, 1]
      (by decide)⟩

/-! ### C7: a class with no observed examples -/

/-- C7 (amended): when no example carries observed label `k`, the
threshold of class `k` is undefined (NaN in the code, `none` here), and
since every comparison against it is false, class `k` is never a member
of any example's confident set; the thresholds computation itself does
not abort. -/
theorem C7_degenerate_class (s : List ℕ) (psx : List (List ℚ)) (K k : ℕ)
    (h : s.count k = 0) :
    threshold s psx k = none ∧
    ∀ row : List ℚ, (confidentBins (thresholdVec s psx K) row).getD k false = false := by
  have hcp : classProbs s psx k = [] := by
    rcases hq : classProbs s psx k with _ | ⟨p, t⟩
    · rfl
    · exfalso
      have hp : p ∈ classProbs s psx k := by
        rw [hq]
        exact List.mem_cons_self p t
      obtain ⟨q, hqmem, hqe⟩ := List.mem_filterMap.mp hp
      have hq1 : q.1 = k := by
        by_contra hne
        rw [if_neg hne] at hqe
        exact Option.noConfusion hqe
      have hks : k ∈ s := hq1 ▸ (List.of_mem_zip hqmem).1
      have := List.count_pos_iff.mpr hks
      omega
  have hth : threshold s psx k = none := by
    unfold threshold
    simp [hcp]
  refine ⟨hth, fun row => ?_⟩
  by_cases hk1 : k < K ∧ k < row.length
  · have htl : k < (thresholdVec s psx K).length := by
      unfold thresholdVec
      simpa using hk1.1
    unfold confidentBins
    rw [getD_zipWith confidentBin _ _ none 0 false htl hk1.2]
    rw [thresholdVec_getD s psx hk1.1, hth]
    rfl
  · apply List.getD_eq_default
    unfold confidentBins
    rw [List.length_zipWith]
    have htl : (thresholdVec s psx K).length = K := by
      unfold thresholdVec
      simp
    rw [htl]
    omega

/-- Witness for C7 at a concrete input. -/
theorem C7_degenerate_class_witness :
    ([0, 2] : List ℕ).count 1 = 0 ∧
    (threshold [0, 2] [[9/10, 1/2], [1/10, 1/2]] 1 = none ∧
      ∀ row : List ℚ,
        (confidentBins (thresholdVec [0, 2] [[9/10, 1/2], [1/10, 1/2]] 2) row).getD 1 false
          = false) :=
  ⟨by decide, C7_degenerate_class [0, 2] [[9/10, 1/2], [1/10, 1/2]] 2 1 (by decide)⟩

/-- C7 counterexample: the claim's own reading — define the threshold of
an empty class as 0 — makes class `k` a member of a confident set (here
class 1, empty, enters example 0's confident set because
`1/2 >= 0 - epsilon`), contradicting the claim's simultaneous assertion
that class `k` is never a member of any confident set. -/
theorem C7_degenerate_class_counterexample :
    ([0, 2] : List ℕ).count 1 = 0 ∧
    tqOf [0, 2] [[9/10, 1/2], [1/10, 1/2]] 1 = 0 ∧
    1 ∈ confidentSet (tqOf [0, 2] [[9/10, 1/2], [1/10, 1/2]]) [9/10, 1/2] 2 :=
  ⟨by decide, by decide, by decide⟩

/-! ### C8: no fail-fast input validation -/

/-- C8 (amended): the code performs no up-front input validation; an
input whose labels include the value 3, outside `[0, K) = [0, 2)`, is
not rejected: joint estimation runs to completion and returns a
calibrated joint (here `[[2, 0], [0, 0]]`). -/
theorem C8_no_failfast_validation :
    (∃ x ∈ ([0, 0, 3] : List ℕ), ¬ x < numClasses [0, 0, 3]) ∧
    (estimateJoint [0, 0, 3] [[9/10, 1/2], [9/10, 1/2], [1/10, 1/2]]).map
      (fun jm => (jm 0 0, jm 0 1, jm 1 0, jm 1 1)) = some (2, 0, 0, 0) :=
  ⟨⟨3, by decide, by decide⟩, by decide⟩

/-- C8 counterexample: joint estimation does not fail on this invalid
input (label 3 with `K = 2`): it returns a result instead of an
InvalidInput error, so no fail-fast validation happens before the
computation. -/
theorem C8_no_failfast_counterexample :
    (∃ x ∈ ([0, 0, 3] : List ℕ), ¬ x < numClasses [0, 0, 3]) ∧
    (estimateJoint [0, 0, 3] [[9/10, 1/2], [9/10, 1/2], [1/10, 1/2]]).isSome = true :=
  ⟨⟨3, by decide, by decide⟩, by decide⟩

/-! ### C3: order-statistic selection with inclusive ties -/

instance : IsTotal ℚ (fun a b : ℚ => b ≤ a) := ⟨fun a b => le_total b a⟩

instance : IsTrans ℚ (fun a b : ℚ => b ≤ a) := ⟨fun _ _ _ h1 h2 => le_trans h2 h1⟩

instance : IsRefl ℚ (fun a b : ℚ => b ≤ a) := ⟨fun a => le_refl a⟩

lemma descSorted_sorted (l : List ℚ) :
    List.Sorted (fun a b : ℚ => b ≤ a) (descSorted l) :=
  List.sorted_insertionSort _ l

lemma countP_ge_kth {l : List ℚ} {m : ℕ} (h1 : 0 < m) (h2 : m ≤ l.length)
    {cut : ℚ} (hcut : kthLargest l m = some cut) :
    m ≤ l.countP (fun x => decide (cut ≤ x)) := by
  have hperm : List.Perm (descSorted l) l := List.perm_insertionSort _ l
  rw [← hperm.countP_eq]
  have hlen : m - 1 < (descSorted l).length := by
    rw [descSorted_length_aux]
    omega
  have hget : (descSorted l)[m - 1] = cut := by
    unfold kthLargest at hcut
    rw [List.get?_eq_getElem?, List.getElem?_eq_getElem hlen] at hcut
    exact Option.some_inj.mp hcut
  have hall : ∀ x ∈ (descSorted l).take m, cut ≤ x := by
    intro x hx
    obtain ⟨i, hilen, hig⟩ := List.mem_iff_getElem.mp hx
    have hitake : i < m := by
      have := List.length_take m (descSorted l)
      omega
    have hids : i < (descSorted l).length := by
      rw [descSorted_length_aux]
      omega
    have hgt : ((descSorted l).take m)[i] = (descSorted l)[i] :=
      List.getElem_take (descSorted l)
    have hrel : (fun a b : ℚ => b ≤ a) ((descSorted l).get ⟨i, hids⟩)
        ((descSorted l).get ⟨m - 1, hlen⟩) := by
      apply (descSorted_sorted l).rel_get_of_le
      show (⟨i, hids⟩ : Fin (descSorted l).length) ≤ ⟨m - 1, hlen⟩
      simp
      omega
    rw [← hig, hgt]
    have hg2 : (descSorted l).get ⟨i, hids⟩ = (descSorted l)[i] := rfl
    have hg3 : (descSorted l).get ⟨m - 1, hlen⟩ = (descSorted l)[m - 1] := rfl
    rw [hg2, hg3, hget] at hrel
    exact hrel
  have hsplit := List.take_append_drop m (descSorted l)
  have hcount : (descSorted l).countP (fun x => decide (cut ≤ x)) =
      ((descSorted l).take m).countP (fun x => decide (cut ≤ x)) +
        ((descSorted l).drop m).countP (fun x => decide (cut ≤ x)) := by
    conv_lhs => rw [← hsplit]
    rw [List.countP_append]
  have htake : ((descSorted l).take m).countP (fun x => decide (cut ≤ x)) =
      ((descSorted l).take m).length := by
    apply List.countP_eq_length.mpr
    intro x hx
    simpa using hall x hx
  have htl : ((descSorted l).take m).length = m := by
    rw [List.length_take, descSorted_length_aux]
    omega
  omega

/-- C3: for an active pair `(k, j)` with `0 < num2prune <= #(s == j)`,
the cutoff is the `num2prune`-th largest margin among the label-`j`
examples, the selected set is exactly the label-`j` examples whose
margin is at least the cutoff (boundary inclusive, so all cutoff ties
are selected), and therefore at least `num2prune` examples are
selected. -/
theorem C3_order_statistic_selection (s : List ℕ) (psx : List (List ℚ))
    (k j np2 : ℕ) (h1 : 0 < np2) (h2 : np2 ≤ (labelIndices s j).length) :
    ∃ cut, kthLargest ((labelIndices s j).map (marginKJ psx k j)) np2 = some cut ∧
      pairMask s psx k j np2 =
        some (fun i => decide (s.getD i 0 = j) && decide (cut ≤ marginKJ psx k j i)) ∧
      np2 ≤ ((labelIndices s j).filter
        (fun i => decide (cut ≤ marginKJ psx k j i))).length := by
  have hml : ((labelIndices s j).map (marginKJ psx k j)).length =
      (labelIndices s j).length := by
    rw [List.length_map]
  have hlen : np2 - 1 < (descSorted ((labelIndices s j).map (marginKJ psx k j))).length := by
    rw [descSorted_length_aux, hml]
    omega
  obtain ⟨cut, hcut⟩ : ∃ cut,
      kthLargest ((labelIndices s j).map (marginKJ psx k j)) np2 = some cut := by
    unfold kthLargest
    rw [List.get?_eq_getElem?, List.getElem?_eq_getElem hlen]
    exact ⟨_, rfl⟩
  refine ⟨cut, hcut, ?_, ?_⟩
  · unfold pairMask
    rw [hcut]
    rfl
  · have hc := countP_ge_kth h1 (by omega) hcut
    rw [List.countP_map] at hc
    rw [← List.countP_eq_length_filter]
    exact le_trans hc (le_of_eq (List.countP_congr (fun x _ => by simp)))

/-- Witness for C3 at a concrete input. -/
theorem C3_order_statistic_selection_witness :
    (0 < 1 ∧ 1 ≤ (labelIndices [0, 0] 0).length) ∧
    (∃ cut, kthLargest ((labelIndices [0, 0] 0).map
        (marginKJ [[1/2, 1/2], [3/10, 7/10]] 1 0)) 1 = some cut ∧
      pairMask [0, 0] [[1/2, 1/2], [3/10, 7/10]] 1 0 1 =
        some (fun i => decide (([0, 0] : List ℕ).getD i 0 = 0) &&
          decide (cut ≤ marginKJ [[1/2, 1/2], [3/10, 7/10]] 1 0 i)) ∧
      1 ≤ ((labelIndices [0, 0] 0).filter
        (fun i => decide (cut ≤ marginKJ [[1/2, 1/2], [3/10, 7/10]] 1 0 i))).length) :=
  ⟨⟨by decide, by decide⟩,
    C3_order_statistic_selection [0, 0] [[1/2, 1/2], [3/10, 7/10]] 1 0 1
      (by decide) (by decide)⟩

/-! ### C4: floor adjustment budget and tie-free selection counts -/

lemma le_natMax {l : List ℕ} {x : ℕ} (h : x ∈ l) : x ≤ natMax l := by
  induction l with
  | nil => simp at h
  | cons a t ih =>
    have hm : natMax (a :: t) = max a (natMax t) := rfl
    rcases List.mem_cons.mp h with rfl | ht
    · rw [hm]
      omega
    · have := ih ht
      rw [hm]
      omega

lemma natMax_mem {l : List ℕ} (hne : l ≠ []) : natMax l ∈ l := by
  induction l with
  | nil => exact absurd rfl hne
  | cons a t ih =>
    have hm : natMax (a :: t) = max a (natMax t) := rfl
    rcases eq_or_ne t [] with rfl | htne
    · have : natMax [a] = a := by
        show max a 0 = a
        omega
      rw [this]
      exact List.mem_cons_self a []
    · by_cases hc : natMax t ≤ a
      · have : natMax (a :: t) = a := by
          rw [hm]
          omega
        rw [this]
        exact List.mem_cons_self a t
      · have : natMax (a :: t) = natMax t := by
          rw [hm]
          omega
        rw [this]
        exact List.mem_cons_of_mem a (ih htne)

lemma natMax_pos {l : List ℕ} (h : l.sum ≠ 0) : 0 < natMax l := by
  induction l with
  | nil => simp at h
  | cons a t ih =>
    have hm : natMax (a :: t) = max a (natMax t) := rfl
    rw [List.sum_cons] at h
    by_cases ha : a = 0
    · have ht : t.sum ≠ 0 := by omega
      have := ih ht
      rw [hm]
      omega
    · rw [hm]
      omega

lemma shaveOnce_sum {l : List ℕ} (h : l.sum ≠ 0) : (shaveOnce l).sum = l.sum - 1 := by
  have hne : l ≠ [] := by
    intro hnil
    rw [hnil] at h
    simp at h
  have hmem : natMax l ∈ l := natMax_mem hne
  have hex : ∃ x ∈ l, decide (x = natMax l) = true := ⟨natMax l, hmem, by simp⟩
  have hidx : l.findIdx (fun x => decide (x = natMax l)) < l.length :=
    List.findIdx_lt_length_of_exists hex
  have hval : l[l.findIdx (fun x => decide (x = natMax l))] = natMax l := by
    have := List.findIdx_getElem (w := hidx)
    simpa using this
  have hpos : 0 < natMax l := natMax_pos h
  unfold shaveOnce
  set n := l.findIdx (fun x => decide (x = natMax l)) with hn
  rw [List.sum_set]
  have hsplit : l.sum = (List.take n l).sum + ((natMax l) + (List.drop (n + 1) l).sum) := by
    conv_lhs => rw [← List.take_append_drop n l]
    rw [List.sum_append, List.drop_eq_getElem_cons hidx, List.sum_cons, hval]
  rw [if_pos hidx]
  omega

lemma shave_length (e : ℕ) (l : List ℕ) : (shave e l).length = l.length := by
  induction e generalizing l with
  | zero => rfl
  | succ n ih =>
    show (if l.sum = 0 then l else shave n (shaveOnce l)).length = l.length
    by_cases hz : l.sum = 0
    · rw [if_pos hz]
    · rw [if_neg hz, ih]
      unfold shaveOnce
      rw [List.length_set]

lemma shave_sum (e : ℕ) (l : List ℕ) : (shave e l).sum = l.sum - min e l.sum := by
  induction e generalizing l with
  | zero =>
    show l.sum = l.sum - min 0 l.sum
    omega
  | succ n ih =>
    show (if l.sum = 0 then l else shave n (shaveOnce l)).sum = l.sum - min (n + 1) l.sum
    by_cases hz : l.sum = 0
    · rw [if_pos hz]
      omega
    · rw [if_neg hz, ih]
      have := shaveOnce_sum hz
      rw [this]
      omega

lemma sum_map_le_sum_map {α : Type} (l : List α) (f g : α → ℕ)
    (h : ∀ x ∈ l, f x ≤ g x) : (l.map f).sum ≤ (l.map g).sum := by
  induction l with
  | nil => simp
  | cons a t ih =>
    simp only [List.map_cons, List.sum_cons]
    have h1 := h a (List.mem_cons_self a t)
    have h2 := ih (fun x hx => h x (List.mem_cons_of_mem a hx))
    omega

lemma offdiagCol_length (jm : ℕ → ℕ → ℕ) (K j : ℕ) : (offdiagCol jm K j).length = K := by
  unfold offdiagCol
  simp

lemma adjusted_offdiag_sum {jm : ℕ → ℕ → ℕ} {s : List ℕ} {K minPer j : ℕ}
    (hj : minPer < s.count j) :
    ((List.range K).map
      (fun k => if k = j then 0 else adjustedPrune jm s K minPer k j)).sum
      ≤ s.count j - minPer := by
  have hlen : (shave ((offdiagCol jm K j).sum - (s.count j - minPer))
      (offdiagCol jm K j)).length = K := by
    rw [shave_length, offdiagCol_length]
  have hstep : ∀ k ∈ List.range K,
      (if k = j then 0 else adjustedPrune jm s K minPer k j) ≤
        (shave ((offdiagCol jm K j).sum - (s.count j - minPer))
          (offdiagCol jm K j)).getD k 0 := by
    intro k _
    by_cases hkj : k = j
    · rw [if_pos hkj]
      omega
    · rw [if_neg hkj]
      unfold adjustedPrune
      rw [if_neg hkj, if_pos hj]
  have h1 := sum_map_le_sum_map (List.range K)
    (fun k => if k = j then 0 else adjustedPrune jm s K minPer k j)
    (fun k => (shave ((offdiagCol jm K j).sum - (s.count j - minPer))
      (offdiagCol jm K j)).getD k 0) hstep
  rw [sum_map_getD_eq hlen, shave_sum] at h1
  omega

lemma countP_le_kth_of_nodup {l : List ℚ} {m : ℕ} (h1 : 0 < m) (hnd : l.Nodup)
    {cut : ℚ} (hcut : kthLargest l m = some cut) :
    l.countP (fun x => decide (cut ≤ x)) ≤ m := by
  have hperm : List.Perm (descSorted l) l := List.perm_insertionSort _ l
  rw [← hperm.countP_eq]
  have hndd : (descSorted l).Nodup := (hperm.nodup_iff).mpr hnd
  have hlen : m - 1 < (descSorted l).length := by
    unfold kthLargest at hcut
    rw [List.get?_eq_getElem?] at hcut
    by_contra hcon
    rw [List.getElem?_eq_none (by omega)] at hcut
    exact Option.noConfusion hcut
  have hget : (descSorted l)[m - 1] = cut := by
    unfold kthLargest at hcut
    rw [List.get?_eq_getElem?, List.getElem?_eq_getElem hlen] at hcut
    exact Option.some_inj.mp hcut
  have hcount : (descSorted l).countP (fun x => decide (cut ≤ x)) =
      ((descSorted l).take m).countP (fun x => decide (cut ≤ x)) +
        ((descSorted l).drop m).countP (fun x => decide (cut ≤ x)) := by
    conv_lhs => rw [← List.take_append_drop m (descSorted l)]
    rw [List.countP_append]
  have hdrop : ((descSorted l).drop m).countP (fun x => decide (cut ≤ x)) = 0 := by
    rw [List.countP_eq_zero]
    intro x hx
    obtain ⟨i, hm, hig⟩ := List.mem_drop_iff_getElem.mp hx
    have hmi : m + i < (descSorted l).length := by omega
    have hrel : (fun a b : ℚ => b ≤ a) ((descSorted l).get ⟨m - 1, hlen⟩)
        ((descSorted l).get ⟨m + i, hmi⟩) := by
      apply (descSorted_sorted l).rel_get_of_le
      show (⟨m - 1, hlen⟩ : Fin (descSorted l).length) ≤ ⟨m + i, hmi⟩
      simp
      omega
    have hne2 : (descSorted l)[m + i] ≠ (descSorted l)[m - 1] := by
      intro heq
      have := (hndd.getElem_inj_iff).mp heq
      omega
    have hlt : (descSorted l)[m + i] < cut := by
      have hg2 : (descSorted l).get ⟨m - 1, hlen⟩ = (descSorted l)[m - 1] := rfl
      have hg3 : (descSorted l).get ⟨m + i, hmi⟩ = (descSorted l)[m + i] := rfl
      rw [hg2, hg3, hget] at hrel
      rw [← hget] at *
      exact lt_of_le_of_ne hrel hne2
    rw [← hig]
    simpa using not_le.mpr hlt
  have htake : ((descSorted l).take m).countP (fun x => decide (cut ≤ x)) ≤ m := by
    calc ((descSorted l).take m).countP (fun x => decide (cut ≤ x))
        ≤ ((descSorted l).take m).length := List.countP_le_length _
      _ ≤ m := by
        rw [List.length_take]
        omega
  omega

lemma countP_or_le (l : List ℕ) (m1 m2 : ℕ → Bool) :
    l.countP (fun i => m1 i || m2 i) ≤
      l.countP (fun i => m1 i) + l.countP (fun i => m2 i) := by
  induction l with
  | nil => simp
  | cons a t ih =>
    rw [List.countP_cons, List.countP_cons, List.countP_cons]
    cases h1 : m1 a <;> cases h2 : m2 a <;> simp [h1, h2] <;> omega

lemma mem_labelIndices {s : List ℕ} {j i : ℕ} (h : i ∈ labelIndices s j) :
    s.getD i 0 = j := by
  unfold labelIndices at h
  have := (List.mem_filter.mp h).2
  simpa using this

lemma labelIndices_length (s : List ℕ) (j : ℕ) :
    (labelIndices s j).length = s.count j := by
  unfold labelIndices
  rw [← List.countP_eq_length_filter]
  exact countP_range_getD s j

lemma pairMask_count_zero {s : List ℕ} {psx : List (List ℚ)}
    {k j2 np2 j : ℕ} {mask : ℕ → Bool}
    (hmask : pairMask s psx k j2 np2 = some mask) (hne : j2 ≠ j) :
    (labelIndices s j).countP (fun i => mask i) = 0 := by
  obtain ⟨cut, _, hmk⟩ := Option.map_eq_some'.mp hmask
  rw [List.countP_eq_zero]
  intro i hi
  show ¬ mask i = true
  have hmaski : mask i =
      (decide (s.getD i 0 = j2) && decide (cut ≤ marginKJ psx k j2 i)) := by
    rw [← hmk]
  rw [hmaski, mem_labelIndices hi]
  simp [Ne.symm hne]

lemma pairMask_count_le {s : List ℕ} {psx : List (List ℚ)} {k j np2 : ℕ}
    {mask : ℕ → Bool} (hmask : pairMask s psx k j np2 = some mask)
    (h1 : 0 < np2)
    (hnd : ((labelIndices s j).map (marginKJ psx k j)).Nodup) :
    (labelIndices s j).countP (fun i => mask i) ≤ np2 := by
  obtain ⟨cut, hcut, hmk⟩ := Option.map_eq_some'.mp hmask
  have hcong : (labelIndices s j).countP (fun i => mask i) =
      (labelIndices s j).countP (fun i => decide (cut ≤ marginKJ psx k j i)) := by
    apply List.countP_congr
    intro i hi
    show mask i = true ↔ decide (cut ≤ marginKJ psx k j i) = true
    have hmaski : mask i =
        (decide (s.getD i 0 = j) && decide (cut ≤ marginKJ psx k j i)) := by
      rw [← hmk]
    rw [hmaski, mem_labelIndices hi]
    simp
  rw [hcong]
  have h2 := countP_le_kth_of_nodup h1 hnd hcut
  rw [List.countP_map] at h2
  exact le_trans (le_of_eq (List.countP_congr (fun x _ => by simp))) h2

lemma foldl_pairStep_none (s : List ℕ) (psx : List (List ℚ)) (pc : ℕ → ℕ → ℕ)
    (k : ℕ) (l : List ℕ) :
    l.foldl (pairStep s psx pc k) none = none :=
  foldl_bind_none (pairGo s psx pc k) l

lemma pairFold_count {s : List ℕ} {psx : List (List ℚ)} {pc : ℕ → ℕ → ℕ}
    {k j : ℕ} (l : List ℕ) (hnd : l.Nodup)
    (hmnd : k ≠ j → ((labelIndices s j).map (marginKJ psx k j)).Nodup)
    (m0 m : ℕ → Bool)
    (hfold : l.foldl (pairStep s psx pc k) (some m0) = some m) :
    (labelIndices s j).countP (fun i => m i) ≤
      (labelIndices s j).countP (fun i => m0 i) +
        (if j ∈ l ∧ k ≠ j ∧ 0 < pc k j then pc k j else 0) := by
  induction l generalizing m0 with
  | nil =>
    have hm : m0 = m := Option.some_inj.mp hfold
    rw [hm]
    simp
  | cons x t ih =>
    rw [List.foldl_cons] at hfold
    have hstep : pairStep s psx pc k (some m0) x = pairGo s psx pc k x m0 := rfl
    rw [hstep] at hfold
    have hndt : t.Nodup := (List.nodup_cons.mp hnd).2
    have hxt : x ∉ t := (List.nodup_cons.mp hnd).1
    by_cases hcond : k ≠ x ∧ 0 < pc k x
    · have hgo : pairGo s psx pc k x m0 = (pairMask s psx k x (pc k x)).map (orMask m0) := by
        unfold pairGo
        rw [if_pos hcond]
      rw [hgo] at hfold
      rcases hpm : pairMask s psx k x (pc k x) with _ | pm
      · rw [hpm] at hfold
        have : (none : Option (ℕ → Bool)) = none := rfl
        rw [show (Option.map (orMask m0) none) = none from rfl] at hfold
        rw [foldl_pairStep_none] at hfold
        exact absurd hfold (by simp)
      · rw [hpm] at hfold
        have hfold2 : t.foldl (pairStep s psx pc k) (some (orMask m0 pm)) = some m := hfold
        have hih := ih hndt (orMask m0 pm) hfold2
        have hor : (labelIndices s j).countP (fun i => orMask m0 pm i) ≤
            (labelIndices s j).countP (fun i => m0 i) +
              (labelIndices s j).countP (fun i => pm i) :=
          countP_or_le (labelIndices s j) m0 pm
        by_cases hxj : x = j
        · subst x
          have hle := pairMask_count_le hpm hcond.2 (hmnd hcond.1)
          have hjt : ¬ (j ∈ t ∧ k ≠ j ∧ 0 < pc k j) := fun hc => hxt hc.1
          rw [if_neg hjt] at hih
          have hcj : j ∈ j :: t ∧ k ≠ j ∧ 0 < pc k j :=
            ⟨List.mem_cons_self j t, hcond⟩
          rw [if_pos hcj]
          omega
        · have hz := pairMask_count_zero hpm hxj
          have hiff : (j ∈ t ∧ k ≠ j ∧ 0 < pc k j) ↔
              (j ∈ x :: t ∧ k ≠ j ∧ 0 < pc k j) := by
            constructor
            · exact fun hc => ⟨List.mem_cons_of_mem x hc.1, hc.2⟩
            · intro hc
              refine ⟨?_, hc.2⟩
              rcases List.mem_cons.mp hc.1 with rfl | hm2
              · exact absurd rfl hxj
              · exact hm2
          by_cases hc2 : j ∈ t ∧ k ≠ j ∧ 0 < pc k j
          · rw [if_pos hc2] at hih
            rw [if_pos (hiff.mp hc2)]
            omega
          · rw [if_neg hc2] at hih
            rw [if_neg (fun hcc => hc2 (hiff.mpr hcc))]
            omega
    · have hgo : pairGo s psx pc k x m0 = some m0 := by
        unfold pairGo
        rw [if_neg hcond]
      rw [hgo] at hfold
      have hih := ih hndt m0 hfold
      by_cases hxj : x = j
      · subst x
        have hjt : ¬ (j ∈ t ∧ k ≠ j ∧ 0 < pc k j) := fun hc => hxt hc.1
        rw [if_neg hjt] at hih
        have hcj : ¬ (j ∈ j :: t ∧ k ≠ j ∧ 0 < pc k j) := by
          intro hc
          exact hcond hc.2
        rw [if_neg hcj]
        omega
      · by_cases hc2 : j ∈ t ∧ k ≠ j ∧ 0 < pc k j
        · rw [if_pos hc2] at hih
          rw [if_pos ⟨List.mem_cons_of_mem x hc2.1, hc2.2⟩]
          omega
        · rw [if_neg hc2] at hih
          have hcj : ¬ (j ∈ x :: t ∧ k ≠ j ∧ 0 < pc k j) := by
            intro hc
            apply hc2
            refine ⟨?_, hc.2⟩
            rcases List.mem_cons.mp hc.1 with rfl | hm2
            · exact absurd rfl hxj
            · exact hm2
          rw [if_neg hcj]
          omega

lemma classMask_count {s : List ℕ} {psx : List (List ℚ)} {pc : ℕ → ℕ → ℕ}
    {K minPer k j : ℕ} {m : ℕ → Bool}
    (h : classMask s psx pc K minPer k = some m)
    (hmnd : k ≠ j → ((labelIndices s j).map (marginKJ psx k j)).Nodup) :
    (labelIndices s j).countP (fun i => m i) ≤
      (if k = j then 0 else pc k j) := by
  unfold classMask at h
  by_cases hguard : minPer < s.count k
  · rw [if_pos hguard] at h
    have hp := pairFold_count (List.range K) (List.nodup_range K) hmnd
      (fun _ => false) m h
    simp only [List.countP_false, Function.const_apply] at hp
    by_cases hkj : k = j
    · subst k
      rw [if_pos rfl]
      by_cases hc : j ∈ List.range K ∧ j ≠ j ∧ 0 < pc j j
      · exact absurd rfl hc.2.1
      · rw [if_neg hc] at hp
        omega
    · rw [if_neg hkj]
      by_cases hc : j ∈ List.range K ∧ k ≠ j ∧ 0 < pc k j
      · rw [if_pos hc] at hp
        omega
      · rw [if_neg hc] at hp
        omega
  · rw [if_neg hguard] at h
    have hm : (fun _ => false : ℕ → Bool) = m := Option.some_inj.mp h
    have hz : (labelIndices s j).countP (fun i => m i) = 0 := by
      rw [List.countP_eq_zero]
      intro i _
      rw [← hm]
      simp
    omega

lemma foldl_combinedStep_none (s : List ℕ) (psx : List (List ℚ)) (pc : ℕ → ℕ → ℕ)
    (K minPer : ℕ) (l : List ℕ) :
    l.foldl (combinedStep s psx pc K minPer) none = none :=
  foldl_bind_none (fun k m => (classMask s psx pc K minPer k).map (orMask m)) l

lemma combinedFold_count {s : List ℕ} {psx : List (List ℚ)} {pc : ℕ → ℕ → ℕ}
    {K minPer j : ℕ} (l : List ℕ) (bound : ℕ → ℕ)
    (hb : ∀ k ∈ l, ∀ mk, classMask s psx pc K minPer k = some mk →
      (labelIndices s j).countP (fun i => mk i) ≤ bound k)
    (m0 m : ℕ → Bool)
    (hfold : l.foldl (combinedStep s psx pc K minPer) (some m0) = some m) :
    (labelIndices s j).countP (fun i => m i) ≤
      (labelIndices s j).countP (fun i => m0 i) + (l.map bound).sum := by
  induction l generalizing m0 with
  | nil =>
    have hm : m0 = m := Option.some_inj.mp hfold
    rw [hm]
    simp
  | cons x t ih =>
    rw [List.foldl_cons] at hfold
    have hstep : combinedStep s psx pc K minPer (some m0) x =
        (classMask s psx pc K minPer x).map (orMask m0) := rfl
    rw [hstep] at hfold
    rcases hcm : classMask s psx pc K minPer x with _ | mk
    · rw [hcm] at hfold
      rw [show (Option.map (orMask m0) (none : Option (ℕ → Bool))) = none from rfl] at hfold
      rw [foldl_combinedStep_none] at hfold
      exact absurd hfold (by simp)
    · rw [hcm] at hfold
      have hfold2 : t.foldl (combinedStep s psx pc K minPer) (some (orMask m0 mk))
          = some m := hfold
      have hih := ih (fun q hq => hb q (List.mem_cons_of_mem x hq)) (orMask m0 mk) hfold2
      have hor : (labelIndices s j).countP (fun i => orMask m0 mk i) ≤
          (labelIndices s j).countP (fun i => m0 i) +
            (labelIndices s j).countP (fun i => mk i) :=
        countP_or_le (labelIndices s j) m0 mk
      have hbx := hb x (List.mem_cons_self x t) mk hcm
      rw [List.map_cons, List.sum_cons]
      omega

lemma countP_not_add {α : Type} (l : List α) (p : α → Prop) [DecidablePred p] :
    l.countP (fun x => decide (¬ p x)) + l.countP (fun x => decide (p x)) = l.length := by
  induction l with
  | nil => simp
  | cons a t ih =>
    rw [List.countP_cons, List.countP_cons, List.length_cons]
    by_cases h : p a
    · have e1 : decide (¬ p a) = false := by simp [h]
      have e2 : decide (p a) = true := by simp [h]
      rw [e1, e2, if_neg (by simp), if_pos rfl]
      omega
    · have e1 : decide (¬ p a) = true := by simp [h]
      have e2 : decide (p a) = false := by simp [h]
      rw [e1, e2, if_pos rfl, if_neg (by simp)]
      omega

/-- C4 (amended): the floor adjustment caps the total off-diagonal prune
budget aimed at an observed class `j` with `count(j) > MIN_NUM_PER_CLASS`
at `count(j) - MIN_NUM_PER_CLASS`; when for each competing true class
the margins of the label-`j` examples are pairwise distinct (no ties at
any selection cutoff), every selection takes at most its budget, so at
least `MIN_NUM_PER_CLASS` examples with observed label `j` are absent
from the returned flagged set.  (Without the tie-freedom assumption the
property fails: see the counterexample.) -/
theorem C4_floor_property_amended (jm : ℕ → ℕ → ℕ) (s : List ℕ) (psx : List (List ℚ))
    (K minPer j : ℕ) (out : List ℕ)
    (hout : selectErrors jm s psx K minPer = some out)
    (hj : j < K) (hcount : minPer < s.count j)
    (hnd : ∀ k, k < K → k ≠ j →
      ((labelIndices s j).map (marginKJ psx k j)).Nodup) :
    minPer ≤ ((labelIndices s j).filter (fun i => decide (i ∉ out))).length := by
  obtain ⟨mask, hmask, hrank⟩ := selectErrors_extract hout
  have hmono : (labelIndices s j).countP (fun i => decide (i ∈ out)) ≤
      (labelIndices s j).countP (fun i => mask i) := by
    apply List.countP_mono_left
    intro i _ hio
    have hiout : i ∈ out := by simpa using hio
    rw [← hrank] at hiout
    have h2 := List.mem_filter.mp (mem_rankErrors_iff.mp hiout)
    have h3 : stepD s psx mask i = true := by simpa using h2.2
    unfold stepD at h3
    cases hmi : mask i
    · rw [hmi] at h3
      simp at h3
    · rfl
  have hfold : (List.range K).foldl
      (combinedStep s psx (adjustedPrune jm s K minPer) K minPer)
      (some (fun _ => false)) = some mask := hmask
  have hbound := combinedFold_count (List.range K)
    (fun k => if k = j then 0 else adjustedPrune jm s K minPer k j)
    (fun k hk mk hmk =>
      classMask_count hmk (fun hkj => hnd k (List.mem_range.mp hk) hkj))
    (fun _ => false) mask hfold
  simp only [List.countP_false, Function.const_apply] at hbound
  have hsum2 := @adjusted_offdiag_sum jm s K minPer j hcount
  have hsum := countP_not_add (labelIndices s j) (fun i => i ∈ out)
  rw [← List.countP_eq_length_filter]
  have hlen := labelIndices_length s j
  omega

/-- Witness for the amended C4 at a concrete input with distinct
margins. -/
theorem C4_floor_property_amended_witness :
    (selectErrors (fun _ _ => 0) [0, 0, 1, 1]
        [[9/10, 1/10], [8/10, 2/10], [1/10, 9/10], [2/10, 8/10]] 2 1 = some [] ∧
      0 < 2 ∧ 1 < ([0, 0, 1, 1] : List ℕ).count 0 ∧
      (∀ k, k < 2 → k ≠ 0 →
        ((labelIndices [0, 0, 1, 1] 0).map
          (marginKJ [[9/10, 1/10], [8/10, 2/10], [1/10, 9/10], [2/10, 8/10]] k 0)).Nodup)) ∧
    1 ≤ ((labelIndices [0, 0, 1, 1] 0).filter
      (fun i => decide (i ∉ ([] : List ℕ)))).length :=
  ⟨⟨by decide, by decide, by decide, by decide⟩,
    C4_floor_property_amended (fun _ _ => 0) [0, 0, 1, 1]
      [[9/10, 1/10], [8/10, 2/10], [1/10, 9/10], [2/10, 8/10]] 2 1 0 []
      (by decide) (by decide) (by decide) (by decide)⟩

/-- C4 counterexample: with `MIN_NUM_PER_CLASS = 1`, observed class 0
has 2 > 1 examples, yet the pipeline flags both of them (margin ties at
the selection cutoff make the order-statistic selection take every tied
example), so zero — fewer than `MIN_NUM_PER_CLASS` — examples with
observed label 0 remain un-pruned, refuting the floor property as
stated. -/
theorem C4_floor_property_counterexample :
    findLabelErrors [0, 0, 1, 1, 1]
      [[1/5, 9/10], [1/5, 9/10], [1/10, 9/10], [1/10, 9/10], [1/10, 9/10]] 1
      = some [0, 1] ∧
    1 < ([0, 0, 1, 1, 1] : List ℕ).count 0 ∧
    ((labelIndices [0, 0, 1, 1, 1] 0).filter
      (fun i => decide (i ∉ ([0, 1] : List ℕ)))).length = 0 :=
  ⟨by decide, by decide, by decide⟩
